import Mathlib
/-!
Verification of the pipeline orchestration and recovery layer of
`streamlit_app.py`: the defensive JSON normalizer (`clean_json_output`),
the marker-bounded text extractor (`locate_table`), the judge-verdict
parsing of `evaluate_with_llm_judge`, the two-tier script runner of
`main`, the artifact-directory reset, and the hyperlink context
extraction.  Python strings are embedded as `List Char`; `json.loads`
is embedded as an executable recursive-descent JSON value reader.
-/

/-! ## Definitions: the shallow embedding of the program -/

set_option maxRecDepth 10000

/-- Whitespace characters recognised by the JSON grammar (and by the
`json.decoder` whitespace regex): space, tab, newline, carriage return. -/
def isJsonWs (c : Char) : Bool :=
  c = ' ' || c = '\t' || c = '\n' || c = '\r'

/-- Drop leading JSON whitespace. -/
def skipWs (cs : List Char) : List Char := cs.dropWhile isJsonWs

/-- ASCII whitespace stripped by Python `str.strip()` (the source never
strips non-ASCII whitespace, which we therefore do not model). -/
def isPyWs (c : Char) : Bool :=
  c = ' ' || c = '\t' || c = '\n' || c = '\r' || c = Char.ofNat 11 || c = Char.ofNat 12

/-- Python `str.strip()`: remove whitespace at both ends. -/
def pyStrip (cs : List Char) : List Char :=
  ((cs.dropWhile isPyWs).reverse.dropWhile isPyWs).reverse

/-- Python slicing `s[a:b]` for clamped non-negative indices. -/
def pySlice (cs : List Char) (a b : Nat) : List Char := (cs.drop a).take (b - a)

/-- Python `str.find`: index of the first occurrence of `pat` as a
contiguous substring, `none` when absent (the source's `-1`). -/
def firstMatchIdx (pat : List Char) : List Char → Option Nat
  | [] => if pat.isEmpty then some 0 else none
  | c :: cs =>
    if pat.isPrefixOf (c :: cs) then some 0
    else (firstMatchIdx pat cs).map (· + 1)

/-- Index of the last occurrence of character `c`, `none` when absent. -/
def lastIdxOf (c : Char) : List Char → Option Nat
  | [] => none
  | x :: xs =>
    match lastIdxOf c xs with
    | some i => some (i + 1)
    | none => if x = c then some 0 else none

/-- Auxiliary splitter for `pySplitSeq`, fuelled to stay structural. -/
def pySplitSeqAux (pat : List Char) : Nat → List Char → List (List Char)
  | 0, cs => [cs]
  | fuel+1, cs =>
    match firstMatchIdx pat cs with
    | none => [cs]
    | some i => cs.take i :: pySplitSeqAux pat fuel (cs.drop (i + pat.length))

/-- Python `str.split(sep)` for a non-empty separator: non-overlapping
leftmost splits, keeping empty segments. -/
def pySplitSeq (pat cs : List Char) : List (List Char) :=
  if pat.isEmpty then [cs] else pySplitSeqAux pat (cs.length + 1) cs

def isDigitC (c : Char) : Bool := '0' ≤ c && c ≤ '9'

/-- Numeric value of a digit string. -/
def digitsVal (ds : List Char) : Nat :=
  ds.foldl (fun a c => a * 10 + (c.toNat - 48)) 0

/-- Python `int(s)`: strip whitespace, optional sign, decimal digits.
(Underscore digit grouping and non-ASCII digits, which Python also
accepts, are not modelled; no input considered here contains them.) -/
def pyInt (cs : List Char) : Option Int :=
  let s := pyStrip cs
  match s with
  | '-' :: ds =>
    if ds.isEmpty then none
    else if ds.all isDigitC then some (-(digitsVal ds : Int)) else none
  | '+' :: ds =>
    if ds.isEmpty then none
    else if ds.all isDigitC then some (digitsVal ds : Int) else none
  | ds =>
    if ds.isEmpty then none
    else if ds.all isDigitC then some (digitsVal ds : Int) else none

/-- Parsed JSON values, as produced by Python's `json.loads`.  Numbers
keep their source lexeme (the claims under study never compute with
numeric values, so no float model is needed); objects keep their member
list in source order. -/
inductive JValue where
  | null
  | bool (b : Bool)
  | num (lexeme : List Char)
  | str (content : List Char)
  | arr (elems : List JValue)
  | obj (members : List (List Char × JValue))

/-- Decoding of a single-character JSON string escape. -/
def escCharMap (e : Char) : Option Char :=
  if e = '"' then some '"'
  else if e = '\\' then some '\\'
  else if e = '/' then some '/'
  else if e = 'b' then some (Char.ofNat 8)
  else if e = 'f' then some (Char.ofNat 12)
  else if e = 'n' then some '\n'
  else if e = 'r' then some '\r'
  else if e = 't' then some '\t'
  else none

def isHexC (c : Char) : Bool :=
  isDigitC c || ('a' ≤ c && c ≤ 'f') || ('A' ≤ c && c ≤ 'F')

def hexVal (c : Char) : Nat :=
  if isDigitC c then c.toNat - 48
  else if 'a' ≤ c then c.toNat - 87
  else c.toNat - 55

/-- Body of a JSON string literal, after the opening quote: decoded
content plus the input remaining after the closing quote.  Mirrors the
strict `json.decoder` scanner: raw control characters are rejected,
escapes are restricted to the JSON set, `\uXXXX` takes four hex digits
(surrogate pairing is collapsed to `Char.ofNat`, which no claim
exercises). -/
def parseStringRest : Nat → List Char → Option (List Char × List Char)
  | 0, _ => none
  | _, [] => none
  | fuel+1, c :: cs =>
    if c = '"' then some ([], cs)
    else if c.toNat < 32 then none
    else if c = '\\' then
      match cs with
      | [] => none
      | e :: cs' =>
        if e = 'u' then
          match cs' with
          | h1 :: h2 :: h3 :: h4 :: cs'' =>
            if isHexC h1 && isHexC h2 && isHexC h3 && isHexC h4 then
              match parseStringRest fuel cs'' with
              | some (s, rest) =>
                some (Char.ofNat ((((hexVal h1 * 16 + hexVal h2) * 16 + hexVal h3) * 16 + hexVal h4)) :: s, rest)
              | none => none
            else none
          | _ => none
        else
          match escCharMap e with
          | some d =>
            match parseStringRest fuel cs' with
            | some (s, rest) => some (d :: s, rest)
            | none => none
          | none => none
    else
      match parseStringRest fuel cs with
      | some (s, rest) => some (c :: s, rest)
      | none => none

/-- Longest digit run at the head of the input. -/
def digitsSplit (cs : List Char) : List Char × List Char :=
  (cs.takeWhile isDigitC, cs.dropWhile isDigitC)

/-- Unsigned integer part of a JSON number: `0` or a nonzero digit
followed by digits (the `(?:0|[1-9]\d*)` of the `json.decoder` regex). -/
def parseUIntLex : List Char → Option (List Char × List Char)
  | [] => none
  | c :: cs =>
    if c = '0' then some (['0'], cs)
    else if isDigitC c then some (c :: (digitsSplit cs).1, (digitsSplit cs).2)
    else none

/-- Signed integer part of a JSON number. -/
def parseIntLex : List Char → Option (List Char × List Char)
  | '-' :: cs =>
    match parseUIntLex cs with
    | some (l, r) => some ('-' :: l, r)
    | none => none
  | cs => parseUIntLex cs

/-- Optional fraction part `(\.\d+)?`; consumes nothing when absent. -/
def parseFracLex : List Char → List Char × List Char
  | '.' :: c :: cs =>
    if isDigitC c then ('.' :: c :: (digitsSplit cs).1, (digitsSplit cs).2)
    else ([], '.' :: c :: cs)
  | cs => ([], cs)

/-- Optional exponent part `([eE][-+]?\d+)?`; consumes nothing when absent. -/
def parseExpLex : List Char → List Char × List Char
  | e :: s :: c :: cs' =>
    if e = 'e' || e = 'E' then
      if (s = '+' || s = '-') && isDigitC c then
        (e :: s :: c :: (digitsSplit cs').1, (digitsSplit cs').2)
      else if isDigitC s then
        (e :: s :: (digitsSplit (c :: cs')).1, (digitsSplit (c :: cs')).2)
      else ([], e :: s :: c :: cs')
    else ([], e :: s :: c :: cs')
  | [e, s] =>
    if (e = 'e' || e = 'E') && isDigitC s then ([e, s], []) else ([], [e, s])
  | cs => ([], cs)

/-- JSON number lexeme: integer part plus optional fraction/exponent. -/
def parseNumLex (cs : List Char) : Option (List Char × List Char) :=
  match parseIntLex cs with
  | none => none
  | some (i, r1) =>
    some (i ++ (parseFracLex r1).1 ++ (parseExpLex (parseFracLex r1).2).1,
      (parseExpLex (parseFracLex r1).2).2)

/-- Parsing modes of the JSON reader: a value, the inside of an object
(after `{`), further object members (after a member), the inside of an
array (after `[`), further array elements. -/
inductive PMode where
  | val | objBody | objMore | arrBody | arrMore

/-- Results of the JSON reader, per mode. -/
inductive PRes where
  | v (val : JValue)
  | ms (members : List (List Char × JValue))
  | es (elems : List JValue)

/-- The recursive-descent reader behind the embedded `json.loads`,
fuelled so that it is structurally recursive (and hence computes by
kernel reduction).  Mirrors Python's `json.decoder` scanner: literals
`true`/`false`/`null` and the non-standard `NaN`/`Infinity`/`-Infinity`
accepted by default, strict strings, no trailing commas, string keys. -/
def parseP : Nat → PMode → List Char → Option (PRes × List Char)
  | 0, _, _ => none
  | fuel+1, .val, cs0 =>
    let cs := skipWs cs0
    if ("true".data).isPrefixOf cs then some (.v (.bool true), cs.drop 4)
    else if ("false".data).isPrefixOf cs then some (.v (.bool false), cs.drop 5)
    else if ("null".data).isPrefixOf cs then some (.v .null, cs.drop 4)
    else if ("NaN".data).isPrefixOf cs then some (.v (.num ("NaN".data)), cs.drop 3)
    else if ("Infinity".data).isPrefixOf cs then some (.v (.num ("Infinity".data)), cs.drop 8)
    else if ("-Infinity".data).isPrefixOf cs then some (.v (.num ("-Infinity".data)), cs.drop 9)
    else
      match cs with
      | '{' :: rest => parseP fuel .objBody rest
      | '[' :: rest => parseP fuel .arrBody rest
      | '"' :: rest =>
        match parseStringRest fuel rest with
        | some (s, r) => some (.v (.str s), r)
        | none => none
      | cs' =>
        match parseNumLex cs' with
        | some (lx, r) => some (.v (.num lx), r)
        | none => none
  | fuel+1, .objBody, cs0 =>
    let cs := skipWs cs0
    match cs with
    | '}' :: rest => some (.v (.obj []), rest)
    | '"' :: r1 =>
      match parseStringRest fuel r1 with
      | none => none
      | some (k, r2) =>
        match skipWs r2 with
        | ':' :: r3 =>
          match parseP fuel .val r3 with
          | some (.v v, r4) =>
            match parseP fuel .objMore r4 with
            | some (.ms more, r5) => some (.v (.obj ((k, v) :: more)), r5)
            | _ => none
          | _ => none
        | _ => none
    | _ => none
  | fuel+1, .objMore, cs0 =>
    let cs := skipWs cs0
    match cs with
    | '}' :: rest => some (.ms [], rest)
    | ',' :: r0 =>
      match skipWs r0 with
      | '"' :: r1 =>
        match parseStringRest fuel r1 with
        | none => none
        | some (k, r2) =>
          match skipWs r2 with
          | ':' :: r3 =>
            match parseP fuel .val r3 with
            | some (.v v, r4) =>
              match parseP fuel .objMore r4 with
              | some (.ms more, r5) => some (.ms ((k, v) :: more), r5)
              | _ => none
            | _ => none
          | _ => none
      | _ => none
    | _ => none
  | fuel+1, .arrBody, cs0 =>
    let cs := skipWs cs0
    match cs with
    | ']' :: rest => some (.v (.arr []), rest)
    | cs' =>
      match parseP fuel .val cs' with
      | some (.v v, r1) =>
        match parseP fuel .arrMore r1 with
        | some (.es more, r2) => some (.v (.arr (v :: more)), r2)
        | _ => none
      | _ => none
  | fuel+1, .arrMore, cs0 =>
    let cs := skipWs cs0
    match cs with
    | ']' :: rest => some (.es [], rest)
    | ',' :: r0 =>
      match parseP fuel .val r0 with
      | some (.v v, r1) =>
        match parseP fuel .arrMore r1 with
        | some (.es more, r2) => some (.es (v :: more), r2)
        | _ => none
      | _ => none
    | _ => none

/-- The embedded `json.loads`: parse one JSON value, then require the
remaining input to be whitespace only (Python's "Extra data" check). -/
def json_loads (cs : List Char) : Option JValue :=
  match parseP (2 * cs.length + 4) .val cs with
  | some (.v v, rest) => if (skipWs rest).isEmpty then some v else none
  | _ => none

/-- The backtick character. -/
def btick : Char := Char.ofNat 96

/-- The literal portion of the fence regex up to and including the brace
that opens its capture group: `'''json\n{` (backticks written `'''`). -/
def fenceOpen9 : List Char := [btick, btick, btick, 'j', 's', 'o', 'n', '\n', '{']

/-- The pattern closing the fence capture group: `}\n'''`. -/
def fenceClose5 : List Char := ['}', '\n', btick, btick, btick]

/-- The capture group of the fence regex (lazy, DOTALL) of src line 283:
at the leftmost occurrence of `'''json\n{`, the lazy group extends to the
first following `}\n'''`.  (A later fence start can only succeed if the
first one does, since the closing pattern it needs lies even further
right, so leftmost-start semantics reduce to the first occurrence.) -/
def fenceGroup (cs : List Char) : Option (List Char) :=
  match firstMatchIdx fenceOpen9 cs with
  | none => none
  | some i =>
    match firstMatchIdx fenceClose5 (cs.drop (i + 9)) with
    | none => none
    | some d => some (pySlice cs (i + 8) (i + 9 + d + 1))

/-- The match of `re.search(r'\{.*\}', raw, re.DOTALL)`: from the first
`{` to the last `}`, greedily, when the latter lies after the former. -/
def braceSpan (cs : List Char) : Option (List Char) :=
  match firstMatchIdx ['{'] cs, lastIdxOf '}' cs with
  | some f, some l => if f < l then some (pySlice cs f (l + 1)) else none
  | _, _ => none

/-- Failure of `clean_json_output`.  Both failure paths call
`st.error(f"Failed to parse JSON: {e}\nRaw output:\n{raw_output}")` and
re-raise, so either way the surfaced error carries the raw text;
`decodeFailed` is the re-raised `json.JSONDecodeError`, `noJsonFound`
the `ValueError("No valid JSON found in output")`. -/
inductive CleanError where
  | decodeFailed (raw : List Char)
  | noJsonFound (raw : List Char)

/-- The raw text carried by a `clean_json_output` failure. -/
def CleanError.rawText : CleanError → List Char
  | .decodeFailed r => r
  | .noJsonFound r => r

/-- Embedding of `clean_json_output` (src lines 275-295): try a direct
`json.loads`; on `JSONDecodeError`, extract a ````json`-fenced group
and parse it; if the fence regex found nothing, extract the greedy
first-`{`-to-last-`}` span and parse that; failing everything, raise.
Note the faithful control flow: when the fence regex matches but its
group does not parse, the `JSONDecodeError` propagates out of the inner
`try` and the brace-span strategy is not attempted. -/
def clean_json_output (raw : List Char) : Except CleanError JValue :=
  match json_loads raw with
  | some v => .ok v
  | none =>
    match fenceGroup raw with
    | some g =>
      match json_loads g with
      | some v => .ok v
      | none => .error (.decodeFailed raw)
    | none =>
      match braceSpan raw with
      | some g =>
        match json_loads g with
        | some v => .ok v
        | none => .error (.decodeFailed raw)
      | none => .error (.noJsonFound raw)

/-- The normalizer contract as the specification words it: three
parsing strategies in strict order — whole text, fenced group, greedy
brace span — first success wins, and if all three fail the error
carries the original raw text. -/
def normalizeSpec (raw : List Char) : Except (List Char) JValue :=
  match json_loads raw with
  | some v => .ok v
  | none =>
    match (fenceGroup raw).bind json_loads with
    | some v => .ok v
    | none =>
      match (braceSpan raw).bind json_loads with
      | some v => .ok v
      | none => .error raw

/-- Scanner state: outside any string literal, inside one, or inside
one right after a backslash. -/
inductive ScanSt where
  | out | inStr | esc
deriving DecidableEq

/-- One scanner step.  `none` marks a character no successful parse can
contain at this state: a backtick outside a string, or a control
character inside one. -/
def scan1 : ScanSt → Char → Option ScanSt
  | .out, c => if c = btick then none else if c = '"' then some .inStr else some .out
  | .inStr, c =>
    if c.toNat < 32 then none
    else if c = '"' then some .out
    else if c = '\\' then some .esc
    else some .inStr
  | .esc, c => if c.toNat < 32 then none else some .inStr

/-- Scan a character list from a starting state. -/
def scanList : ScanSt → List Char → Option ScanSt
  | s, [] => some s
  | s, c :: cs =>
    match scan1 s c with
    | none => none
    | some s' => scanList s' cs

/-- `ConsumesFrom st st' cs rest`: the parser step that turned input
`cs` into remaining input `rest` consumed a region that the scanner
takes from state `st` to state `st'`. -/
def ConsumesFrom (st st' : ScanSt) (cs rest : List Char) : Prop :=
  ∃ pre, cs = pre ++ rest ∧ scanList st pre = some st'

/-- A character the scanner passes over unchanged in the `out` state. -/
def OutNeutral (c : Char) : Prop := c ≠ btick ∧ c ≠ '"'

instance : DecidablePred OutNeutral := fun c =>
  decidable_of_iff (c ≠ btick ∧ c ≠ '"') Iff.rfl

/-- Characters a JSON number lexeme may contain. -/
def NumChar (c : Char) : Prop :=
  isDigitC c = true ∨ c = '-' ∨ c = '+' ∨ c = '.' ∨ c = 'e' ∨ c = 'E'

/-- `pat` occurs as a contiguous substring of `cs`. -/
def OccursIn (pat cs : List Char) : Prop := ∃ a b, cs = a ++ (pat ++ b)

/-- The first eight characters of the fence opener: `'''json\n`. -/
def fence8 : List Char := [btick, btick, btick, 'j', 's', 'o', 'n', '\n']

/-- C7 counterexample input: a genuine JSON object in a genuine
````json` fence, but preceded by "prose" that itself contains the fence
opener followed by a brace.  The lazy fence regex anchors on the decoy,
captures an unparsable group, and `clean_json_output` raises instead of
returning the fenced object. -/
def c7cex : List Char := "```json\n\x7bbad\n```json\n\x7b\"a\": 1\x7d\n```".data

/-- Failure of `locate_table`: the `ValueError(f'Header {h} not found in
text')` of src line 90/92, carrying the missing marker (the
`MarkerNotFoundError` of the specification). -/
inductive MarkerError where
  | markerNotFound (marker : List Char)

/-- Embedding of `locate_table` (src lines 86-93): find the first
occurrence of each header; fail on the missing start header first, then
on the missing end header; otherwise return the stripped slice from the
start of the start header (inclusive) to the start of the end header
(exclusive). -/
def locate_table (text start_header end_header : List Char) :
    Except MarkerError (List Char) :=
  let start_index := firstMatchIdx start_header text
  let end_index := firstMatchIdx end_header text
  match start_index with
  | none => .error (.markerNotFound start_header)
  | some s =>
    match end_index with
    | none => .error (.markerNotFound end_header)
    | some e => .ok (pyStrip (pySlice text s e))

/-- The per-document extraction loop of `main` (src lines 433-436): a
list comprehension over all PDF texts; an exception raised for any
document aborts the whole comprehension, and the surrounding
`try`/`except` of `main` turns it into the fatal "Analysis failed"
message.  Embedded as a monadic map in `Except`. -/
def extract_all_tables : List (List Char) → List Char → List Char →
    Except MarkerError (List (List Char))
  | [], _, _ => .ok []
  | t :: ts, sh, eh =>
    match locate_table t sh eh with
    | .error e => .error e
    | .ok r =>
      match extract_all_tables ts sh eh with
      | .error e => .error e
      | .ok rs => .ok (r :: rs)

/-- The fixed placeholder evaluation of the default verdict. -/
def defaultEvaluation : List Char := "Could not parse evaluation".data

/-- Embedding of the response-parsing half of `evaluate_with_llm_judge`
(src lines 131-143).  The judge model call is an external collaborator,
so its response text is the argument here.  `next(...)` raising
`StopIteration` when no line starts with `Score:`, and `int(...)`
raising `ValueError` on an unparsable integer, are both caught by the
surrounding `except Exception`, which returns the default verdict
`(50, "Could not parse evaluation")`. -/
def evaluate_with_llm_judge (response_text : List Char) : Int × List Char :=
  let lines := response_text.splitOn '\n'
  match lines.find? (fun l => ("Score:".data).isPrefixOf l) with
  | none => (50, defaultEvaluation)
  | some score_line =>
    match pyInt (pyStrip ((pySplitSeq [':'] score_line).getD 1 [])) with
    | none => (50, defaultEvaluation)
    | some score =>
      let eval_lines := lines.filter (fun l => ("Evaluation:".data).isPrefixOf l)
      (score, List.intercalate [' ']
        (eval_lines.map (fun l => pyStrip ((pySplitSeq ("Evaluation:".data) l).getD 1 []))))

/-- Observable attempts of the visualization-script execution. -/
inductive ExecEvent where
  | runpyAttempt
  | subprocessAttempt
deriving DecidableEq

/-- Embedding of the two-tier execution of `main` (src lines 474-479):
`runpy.run_path` in-process first, with the parsed `metrics` value
injected via `init_globals`; on any exception, a warning and exactly
one `subprocess.run(... check=True)` invocation, which does not receive
the in-process binding (its only input is the script file); if that
also raises, the error propagates to `main`'s outer handler and the run
fails.  The two execution paths are oracles, typed so that only the
in-process one can see the metrics binding. -/
def run_generated_script (metrics : JValue)
    (runpyExec : JValue → Except (List Char) Unit)
    (subprocExec : Unit → Except (List Char) Unit) :
    List ExecEvent × Except (List Char) Unit :=
  match runpyExec metrics with
  | .ok _ => ([.runpyAttempt], .ok ())
  | .error _ => ([.runpyAttempt, .subprocessAttempt], subprocExec ())

/-- A file-system abstraction: the existing directory paths and file
paths, each path a list of components.  (Lists are used as finite sets;
duplicates are harmless.) -/
structure FsState where
  dirs : List (List String)
  files : List (List String)

/-- The designated artifact directory `visualizations/` of src line 464. -/
def vizDir : List String := ["visualizations"]

/-- `shutil.rmtree d` (src line 471): remove the directory and
everything beneath it. -/
def rmtreeFs (d : List String) (fs : FsState) : FsState :=
  { dirs := fs.dirs.filter (fun p => !(d.isPrefixOf p)),
    files := fs.files.filter (fun p => !(d.isPrefixOf p)) }

/-- `os.makedirs(d, exist_ok=True)` (src line 472). -/
def makedirsFs (d : List String) (fs : FsState) : FsState :=
  { fs with dirs := d :: fs.dirs }

/-- `open(script_path, "w")` (src line 468): ensure the file exists
(its content plays no role in this claim). -/
def writeFileFs (p : List String) (fs : FsState) : FsState :=
  { fs with files := p :: fs.files }

/-- Embedding of the preparation of the artifact directory in `main`
(src lines 468-472), performed immediately before the script execution
of lines 474-479: write the generated script to `visualizations.py`
(a sibling of the directory, not inside it), delete the
`visualizations` directory if it exists, then recreate it.  The
returned state is the one in which the script starts running. -/
def prepare_visualizations_dir (fs : FsState) : FsState :=
  let fs1 := writeFileFs ["visualizations.py"] fs
  let fs2 := if fs1.dirs.contains vizDir then rmtreeFs vizDir fs1 else fs1
  makedirsFs vizDir fs2

/-- On a real file system a file strictly below `visualizations/` can
only exist if that directory exists; `os.path.exists` (src line 470) is
modelled by directory membership. -/
def WellFormedFs (fs : FsState) : Prop :=
  ∀ p ∈ fs.files, vizDir <+: p → p ≠ vizDir → vizDir ∈ fs.dirs

instance : DecidablePred WellFormedFs := fun fs => by
  unfold WellFormedFs
  infer_instance

/-- Embedding of the context computation of
`extract_hyperlinks_from_pdf` (src lines 73-76): Python `text.find(uri)`
returns `-1` when the URI does not occur in the extracted page text,
and the slice bounds are computed from that signed value with no
special case, `context = text[max(0, find-50) : min(len, find+len(uri)+50)].strip()`. -/
def link_context (page_text uri : List Char) : List Char :=
  let found : Int :=
    match firstMatchIdx uri page_text with
    | some i => (i : Int)
    | none => -1
  let context_start : Int := max 0 (found - 50)
  let context_end : Int := min (page_text.length : Int) (found + uri.length + 50)
  pyStrip (pySlice page_text context_start.toNat context_end.toNat)

/-- Embedding of the whole record loop of `extract_hyperlinks_from_pdf`
(src lines 61-84): one record `(url, context, page_number)` per link
annotation, pages numbered from 1, annotations in order; the function
is total — there is no failure path. -/
def extract_hyperlinks_from_pdf (pages : List (List Char × List (List Char))) :
    List (List Char × List Char × Nat) :=
  pages.enum.flatMap (fun pg =>
    pg.2.2.map (fun uri => (uri, link_context pg.2.1 uri, pg.1 + 1)))

/-! ## Theorems: verification of the claims -/

example : json_loads ("null".data) = some .null := rfl

example : json_loads (" 42 ".data) = some (.num ("42".data)) := rfl

example : json_loads ("\x7b\"a\": 1\x7d".data) =
    some (.obj [("a".data, .num ("1".data))]) := rfl

example : json_loads ("[1, \"x\", \x7b\x7d]".data) =
    some (.arr [.num ("1".data), .str ("x".data), .obj []]) := rfl

example : json_loads ("\x7b\"a\": \x7b\"b\": [true, null]\x7d\x7d".data) =
    some (.obj [("a".data, .obj [("b".data, .arr [.bool true, .null])])]) := rfl

example : json_loads ("\x7b".data) = none := rfl

example : json_loads ("1.2.3".data) = none := rfl

example : json_loads ("\x7b\"a\": 1,\x7d".data) = none := rfl

example : json_loads ("hello".data) = none := rfl

example : json_loads ("\x7b\"a\"\x7d".data) = none := rfl

example : json_loads ("-1.5e3".data) = some (.num ("-1.5e3".data)) := rfl

example : json_loads ("\"a\\nb\"".data) = some (.str ('a' :: '\n' :: 'b' :: [])) := rfl

example : json_loads ("\"a\nb\"".data) = none := rfl

example : json_loads ("NaN".data) = some (.num ("NaN".data)) := rfl

example : json_loads ("01".data) = none := rfl

example : json_loads ("[1,]".data) = none := rfl

example : fenceGroup ("pre ```json\n\x7b\"a\": 1\x7d\n``` post".data) =
    some ("\x7b\"a\": 1\x7d".data) := rfl

example : fenceGroup ("no fence \x7b\"a\": 1\x7d".data) = none := rfl

example : braceSpan ("xx \x7b\"a\": 1\x7d yy".data) = some ("\x7b\"a\": 1\x7d".data) := rfl

example : braceSpan ("\x7d\x7b".data) = none := rfl

example : clean_json_output ("\x7b\"a\": 1\x7d".data) =
    .ok (.obj [("a".data, .num ("1".data))]) := rfl

example : clean_json_output ("see ```json\n\x7b\"a\": 1\x7d\n``` done".data) =
    .ok (.obj [("a".data, .num ("1".data))]) := rfl

example : clean_json_output ("text \x7b\"a\": 1\x7d text".data) =
    .ok (.obj [("a".data, .num ("1".data))]) := rfl

example : clean_json_output ("no json at all".data) =
    .error (.noJsonFound ("no json at all".data)) := rfl

example : clean_json_output ("bad \x7bnot json\x7d".data) =
    .error (.decodeFailed ("bad \x7bnot json\x7d".data)) := rfl

theorem scanList_append (s : ScanSt) (a b : List Char) :
    scanList s (a ++ b) = (scanList s a).bind (fun m => scanList m b) := by
  induction a generalizing s with
  | nil => simp [scanList]
  | cons c cs ih =>
    simp only [List.cons_append, scanList]
    cases scan1 s c <;> simp [ih]

theorem ConsumesFrom.trans {a m b : ScanSt} {x y z : List Char}
    (h1 : ConsumesFrom a m x y) (h2 : ConsumesFrom m b y z) :
    ConsumesFrom a b x z := by
  obtain ⟨p1, hx, hs1⟩ := h1
  obtain ⟨p2, hy, hs2⟩ := h2
  exact ⟨p1 ++ p2, by rw [hx, hy, List.append_assoc],
    by rw [scanList_append, hs1]; exact hs2⟩

theorem ConsumesFrom.refl (s : ScanSt) (cs : List Char) : ConsumesFrom s s cs cs :=
  ⟨[], rfl, rfl⟩

theorem ConsumesFrom.single {s s' : ScanSt} {c : Char} (rest : List Char)
    (h : scan1 s c = some s') : ConsumesFrom s s' (c :: rest) rest :=
  ⟨[c], rfl, by simp [scanList, h]⟩

theorem ConsumesFrom.openQuote (rest : List Char) :
    ConsumesFrom .out .inStr ('"' :: rest) rest :=
  ConsumesFrom.single rest (by decide)

theorem scan1_out_neutral {c : Char} (h : OutNeutral c) : scan1 .out c = some .out := by
  simp [scan1, h.1, h.2]

theorem ConsumesFrom.outChar {c : Char} (h : OutNeutral c) (rest : List Char) :
    ConsumesFrom .out .out (c :: rest) rest :=
  ConsumesFrom.single rest (scan1_out_neutral h)

theorem scanList_out_neutral {l : List Char} (h : ∀ c ∈ l, OutNeutral c) :
    scanList .out l = some .out := by
  induction l with
  | nil => rfl
  | cons c cs ih =>
    simp only [scanList, scan1_out_neutral (h c (List.mem_cons_self c cs))]
    exact ih fun x hx => h x (List.mem_cons_of_mem c hx)

/-- Consume a token of `out`-neutral characters. -/
theorem ConsumesFrom.token {tok rest cs : List Char} (hsplit : cs = tok ++ rest)
    (h : ∀ c ∈ tok, OutNeutral c) : ConsumesFrom .out .out cs rest :=
  ⟨tok, hsplit, scanList_out_neutral h⟩

theorem isJsonWs_neutral {c : Char} (h : isJsonWs c = true) : OutNeutral c := by
  constructor <;> rintro rfl <;> exact absurd h (by decide)

theorem ConsumesFrom.ws (cs : List Char) : ConsumesFrom .out .out cs (skipWs cs) :=
  ConsumesFrom.token (List.takeWhile_append_dropWhile isJsonWs cs).symm
    (fun _ hc => isJsonWs_neutral (List.mem_takeWhile_imp hc))

theorem isDigitC_neutral {c : Char} (h : isDigitC c = true) : OutNeutral c := by
  constructor <;> rintro rfl <;> exact absurd h (by decide)

theorem isDigitC_toNat {c : Char} (h : isDigitC c = true) :
    48 ≤ c.toNat ∧ c.toNat ≤ 57 := by
  simp only [isDigitC, Bool.and_eq_true, decide_eq_true_eq] at h
  obtain ⟨h1, h2⟩ := h
  rw [Char.le_def] at h1 h2
  exact ⟨h1, h2⟩

theorem char_ne_of_toNat_ne {c d : Char} (h : c.toNat ≠ d.toNat) : c ≠ d :=
  fun hh => h (hh ▸ rfl)

theorem isHexC_toNat {c : Char} (h : isHexC c = true) :
    (48 ≤ c.toNat ∧ c.toNat ≤ 57) ∨ (97 ≤ c.toNat ∧ c.toNat ≤ 102) ∨
    (65 ≤ c.toNat ∧ c.toNat ≤ 70) := by
  simp only [isHexC, isDigitC, Bool.or_eq_true, Bool.and_eq_true,
    decide_eq_true_eq] at h
  rcases h with (⟨h1, h2⟩ | ⟨h1, h2⟩) | ⟨h1, h2⟩ <;> rw [Char.le_def] at h1 h2
  · exact Or.inl ⟨h1, h2⟩
  · exact Or.inr (Or.inl ⟨h1, h2⟩)
  · exact Or.inr (Or.inr ⟨h1, h2⟩)

theorem escCharMap_ge32 {e d : Char} (h : escCharMap e = some d) : ¬ e.toNat < 32 := by
  unfold escCharMap at h
  split_ifs at h with h1 h2 h3 h4 h5 h6 h7 h8
  · subst h1; decide
  · subst h2; decide
  · subst h3; decide
  · subst h4; decide
  · subst h5; decide
  · subst h6; decide
  · subst h7; decide
  · subst h8; decide

theorem scan1_inStr_plain {c : Char} (h32 : ¬ c.toNat < 32) (hq : c ≠ '"')
    (hbs : c ≠ '\\') : scan1 .inStr c = some .inStr := by
  simp [scan1, h32, hq, hbs]

theorem scan1_esc_ok {c : Char} (h32 : ¬ c.toNat < 32) : scan1 .esc c = some .inStr := by
  simp [scan1, h32]

theorem scan1_inStr_hex {c : Char} (h : isHexC c = true) :
    scan1 .inStr c = some .inStr := by
  have hq : (Char.toNat '"') = 34 := rfl
  have hb : (Char.toNat '\\') = 92 := rfl
  rcases isHexC_toNat h with ⟨h1, h2⟩ | ⟨h1, h2⟩ | ⟨h1, h2⟩ <;>
    exact scan1_inStr_plain (by omega) (char_ne_of_toNat_ne (by omega))
      (char_ne_of_toNat_ne (by omega))

/-- A successful string-literal parse consumes a region the scanner
takes from inside-string back to outside. -/
theorem parseStringRest_scan : ∀ fuel cs s rest,
    parseStringRest fuel cs = some (s, rest) → ConsumesFrom .inStr .out cs rest := by
  intro fuel
  induction fuel with
  | zero => intro cs s rest h; simp [parseStringRest] at h
  | succ n ih =>
    intro cs s rest h
    match cs with
    | [] => simp [parseStringRest] at h
    | c :: cs' =>
      simp only [parseStringRest] at h
      by_cases hq : c = '"'
      · rw [if_pos hq] at h
        simp only [Option.some.injEq, Prod.mk.injEq] at h
        obtain ⟨-, h2⟩ := h
        subst h2; subst hq
        exact ConsumesFrom.single _ (by decide)
      · rw [if_neg hq] at h
        by_cases h32 : c.toNat < 32
        · rw [if_pos h32] at h; exact absurd h (by simp)
        · rw [if_neg h32] at h
          by_cases hbs : c = '\\'
          · rw [if_pos hbs] at h
            match cs' with
            | [] => exact absurd h (by simp)
            | e :: cs'' =>
              dsimp only at h
              by_cases hu : e = 'u'
              · rw [if_pos hu] at h
                match cs'' with
                | [] => exact absurd h (by simp)
                | [h1] => exact absurd h (by simp)
                | [h1, h2] => exact absurd h (by simp)
                | [h1, h2, h3] => exact absurd h (by simp)
                | h1 :: h2 :: h3 :: h4 :: cs''' =>
                  dsimp only at h
                  by_cases hhex : (isHexC h1 && isHexC h2 && isHexC h3 && isHexC h4) = true
                  · rw [if_pos hhex] at h
                    simp only [Bool.and_eq_true] at hhex
                    obtain ⟨⟨⟨hx1, hx2⟩, hx3⟩, hx4⟩ := hhex
                    match hrec : parseStringRest n cs''' with
                    | none => rw [hrec] at h; exact absurd h (by simp)
                    | some (s', rest') =>
                      rw [hrec] at h
                      dsimp only at h
                      simp only [Option.some.injEq, Prod.mk.injEq] at h
                      obtain ⟨-, h2'⟩ := h
                      subst h2'
                      subst hbs; subst hu
                      have step1 : ConsumesFrom ScanSt.inStr ScanSt.esc
                          ('\\' :: 'u' :: h1 :: h2 :: h3 :: h4 :: cs''')
                          ('u' :: h1 :: h2 :: h3 :: h4 :: cs''') :=
                        ConsumesFrom.single _ (by decide)
                      have step2 : ConsumesFrom ScanSt.esc ScanSt.inStr
                          ('u' :: h1 :: h2 :: h3 :: h4 :: cs''')
                          (h1 :: h2 :: h3 :: h4 :: cs''') :=
                        ConsumesFrom.single _ (by decide)
                      have hex_step : ∀ (hc : Char) (t : List Char), isHexC hc = true →
                          ConsumesFrom ScanSt.inStr ScanSt.inStr (hc :: t) t := fun hc t hh =>
                        ConsumesFrom.single _ (scan1_inStr_hex hh)
                      exact step1.trans (step2.trans ((hex_step h1 _ hx1).trans
                        ((hex_step h2 _ hx2).trans ((hex_step h3 _ hx3).trans
                          ((hex_step h4 _ hx4).trans (ih cs''' s' rest' hrec))))))
                  · rw [if_neg hhex] at h; exact absurd h (by simp)
              · rw [if_neg hu] at h
                match hesc : escCharMap e with
                | none => rw [hesc] at h; exact absurd h (by simp)
                | some d =>
                  rw [hesc] at h
                  dsimp only at h
                  match hrec : parseStringRest n cs'' with
                  | none => rw [hrec] at h; exact absurd h (by simp)
                  | some (s', rest') =>
                    rw [hrec] at h
                    dsimp only at h
                    simp only [Option.some.injEq, Prod.mk.injEq] at h
                    obtain ⟨-, h2'⟩ := h
                    subst h2'
                    subst hbs
                    have he32 : ¬ e.toNat < 32 := escCharMap_ge32 hesc
                    have step1 : ConsumesFrom ScanSt.inStr ScanSt.esc
                        ('\\' :: e :: cs'') (e :: cs'') :=
                      ConsumesFrom.single _ (by decide)
                    have step2 : ConsumesFrom ScanSt.esc ScanSt.inStr (e :: cs'') cs'' :=
                      ConsumesFrom.single _ (scan1_esc_ok he32)
                    exact step1.trans (step2.trans (ih cs'' s' rest' hrec))
          · rw [if_neg hbs] at h
            match hrec : parseStringRest n cs' with
            | none => rw [hrec] at h; exact absurd h (by simp)
            | some (s', rest') =>
              rw [hrec] at h
              dsimp only at h
              simp only [Option.some.injEq, Prod.mk.injEq] at h
              obtain ⟨-, h2'⟩ := h
              subst h2'
              exact (ConsumesFrom.single _ (scan1_inStr_plain h32 hq hbs)).trans
                (ih cs' s' rest' hrec)

theorem numChar_neutral {c : Char} (h : NumChar c) : OutNeutral c := by
  rcases h with h | rfl | rfl | rfl | rfl | rfl
  · exact isDigitC_neutral h
  all_goals exact ⟨by decide, by decide⟩

theorem digitsSplit_app (cs : List Char) :
    cs = (digitsSplit cs).1 ++ (digitsSplit cs).2 :=
  (List.takeWhile_append_dropWhile isDigitC cs).symm

theorem digitsSplit_mem {cs : List Char} {c : Char} (h : c ∈ (digitsSplit cs).1) :
    isDigitC c = true :=
  List.mem_takeWhile_imp h

theorem parseUIntLex_spec : ∀ {cs l r : List Char}, parseUIntLex cs = some (l, r) →
    cs = l ++ r ∧ ∀ c ∈ l, NumChar c := by
  intro cs l r h
  match cs with
  | [] => simp [parseUIntLex] at h
  | c :: cs' =>
    simp only [parseUIntLex] at h
    by_cases h0 : c = '0'
    · rw [if_pos h0] at h
      simp only [Option.some.injEq, Prod.mk.injEq] at h
      obtain ⟨h1, h2⟩ := h
      subst h1; subst h2; subst h0
      exact ⟨rfl, by intro x hx; simp at hx; subst hx; exact Or.inl (by decide)⟩
    · rw [if_neg h0] at h
      by_cases hd : isDigitC c = true
      · rw [if_pos hd] at h
        simp only [Option.some.injEq, Prod.mk.injEq] at h
        obtain ⟨h1, h2⟩ := h
        subst h1; subst h2
        refine ⟨by simpa using congrArg (c :: ·) (digitsSplit_app cs'), ?_⟩
        intro x hx
        rcases List.mem_cons.mp hx with rfl | hx'
        · exact Or.inl hd
        · exact Or.inl (digitsSplit_mem hx')
      · rw [if_neg hd] at h; exact absurd h (by simp)

theorem parseIntLex_spec : ∀ {cs l r : List Char}, parseIntLex cs = some (l, r) →
    cs = l ++ r ∧ ∀ c ∈ l, NumChar c := by
  intro cs l r h
  match cs with
  | [] => simp [parseIntLex, parseUIntLex] at h
  | c :: cs' =>
    by_cases hm : c = '-'
    · subst hm
      simp only [parseIntLex] at h
      match hu : parseUIntLex cs' with
      | none => rw [hu] at h; exact absurd h (by simp)
      | some (l', r') =>
        rw [hu] at h
        dsimp only at h
        simp only [Option.some.injEq, Prod.mk.injEq] at h
        obtain ⟨h1, h2⟩ := h
        subst h1; subst h2
        obtain ⟨ha, hb⟩ := parseUIntLex_spec hu
        refine ⟨by simpa using congrArg ('-' :: ·) ha, ?_⟩
        intro x hx
        rcases List.mem_cons.mp hx with rfl | hx'
        · exact Or.inr (Or.inl rfl)
        · exact hb x hx'
    · have : parseIntLex (c :: cs') = parseUIntLex (c :: cs') := by
        unfold parseIntLex
        split
        · next heq => exact absurd (List.cons.inj heq).1 hm
        · rfl
      rw [this] at h
      exact parseUIntLex_spec h

theorem parseFracLex_spec (cs : List Char) :
    cs = (parseFracLex cs).1 ++ (parseFracLex cs).2 ∧ ∀ c ∈ (parseFracLex cs).1, NumChar c := by
  unfold parseFracLex
  split
  · next c cs' =>
    split
    · next hd =>
      constructor
      · simpa using congrArg (fun t => '.' :: c :: t) (digitsSplit_app cs')
      · intro x hx
        rcases List.mem_cons.mp hx with rfl | hx'
        · exact Or.inr (Or.inr (Or.inr (Or.inl rfl)))
        · rcases List.mem_cons.mp hx' with rfl | hx''
          · exact Or.inl hd
          · exact Or.inl (digitsSplit_mem hx'')
    · exact ⟨rfl, by simp⟩
  · exact ⟨rfl, by simp⟩

theorem parseExpLex_spec (cs : List Char) :
    cs = (parseExpLex cs).1 ++ (parseExpLex cs).2 ∧ ∀ c ∈ (parseExpLex cs).1, NumChar c := by
  have hsign : ∀ {s : Char}, (s = '+' || s = '-') = true → NumChar s := by
    intro s hs
    rcases Bool.or_eq_true _ _ |>.mp hs with hs' | hs' <;>
      simp only [decide_eq_true_eq] at hs' <;> subst hs'
    · exact Or.inr (Or.inr (Or.inl rfl))
    · exact Or.inr (Or.inl rfl)
  have hee : ∀ {e : Char}, (e = 'e' || e = 'E') = true → NumChar e := by
    intro e he
    rcases Bool.or_eq_true _ _ |>.mp he with he' | he' <;>
      simp only [decide_eq_true_eq] at he' <;> subst he'
    · exact Or.inr (Or.inr (Or.inr (Or.inr (Or.inl rfl))))
    · exact Or.inr (Or.inr (Or.inr (Or.inr (Or.inr rfl))))
  unfold parseExpLex
  split
  · next e s c cs' =>
    split
    · next he =>
      split
      · next hsc =>
        obtain ⟨hs, hc⟩ := Bool.and_eq_true _ _ |>.mp hsc
        constructor
        · simpa using congrArg (fun t => e :: s :: c :: t) (digitsSplit_app cs')
        · intro x hx
          rcases List.mem_cons.mp hx with rfl | hx'
          · exact hee he
          · rcases List.mem_cons.mp hx' with rfl | hx''
            · exact hsign hs
            · rcases List.mem_cons.mp hx'' with rfl | hx'''
              · exact Or.inl hc
              · exact Or.inl (digitsSplit_mem hx''')
      · split
        · next hds =>
          constructor
          · simpa using congrArg (fun t => e :: s :: t) (digitsSplit_app (c :: cs'))
          · intro x hx
            rcases List.mem_cons.mp hx with rfl | hx'
            · exact hee he
            · rcases List.mem_cons.mp hx' with rfl | hx''
              · exact Or.inl hds
              · exact Or.inl (digitsSplit_mem hx'')
        · exact ⟨rfl, by simp⟩
    · exact ⟨rfl, by simp⟩
  · next e s =>
    split
    · next hes =>
      obtain ⟨he, hs⟩ := Bool.and_eq_true _ _ |>.mp hes
      refine ⟨by simp, ?_⟩
      intro x hx
      rcases List.mem_cons.mp hx with rfl | hx'
      · exact hee he
      · rcases List.mem_cons.mp hx' with rfl | hx''
        · exact Or.inl hs
        · exact absurd hx'' (by simp)
    · exact ⟨rfl, by simp⟩
  · exact ⟨rfl, by simp⟩

theorem parseNumLex_spec {cs l r : List Char} (h : parseNumLex cs = some (l, r)) :
    cs = l ++ r ∧ ∀ c ∈ l, NumChar c := by
  unfold parseNumLex at h
  split at h
  · exact absurd h (by simp)
  · next i r1 heq =>
    simp only [Option.some.injEq, Prod.mk.injEq] at h
    obtain ⟨h1, h2⟩ := h
    subst h1; subst h2
    obtain ⟨hia, hib⟩ := parseIntLex_spec heq
    obtain ⟨hfa, hfb⟩ := parseFracLex_spec r1
    obtain ⟨hea, heb⟩ := parseExpLex_spec (parseFracLex r1).2
    constructor
    · calc cs = i ++ r1 := hia
        _ = i ++ ((parseFracLex r1).1 ++ (parseFracLex r1).2) := by rw [← hfa]
        _ = i ++ ((parseFracLex r1).1 ++ ((parseExpLex (parseFracLex r1).2).1 ++
              (parseExpLex (parseFracLex r1).2).2)) := by rw [← hea]
        _ = (i ++ (parseFracLex r1).1 ++ (parseExpLex (parseFracLex r1).2).1) ++
              (parseExpLex (parseFracLex r1).2).2 := by simp [List.append_assoc]
    · intro x hx
      rcases List.mem_append.mp hx with hx' | hx'
      · rcases List.mem_append.mp hx' with hx'' | hx''
        · exact hib x hx''
        · exact hfb x hx''
      · exact heb x hx'

/-- A successful number lex consumes an `out`-neutral region. -/
theorem parseNumLex_consumes {cs l r : List Char} (h : parseNumLex cs = some (l, r)) :
    ConsumesFrom .out .out cs r :=
  ConsumesFrom.token (parseNumLex_spec h).1
    (fun c hc => numChar_neutral ((parseNumLex_spec h).2 c hc))

/-- Consume a literal that is a verified prefix of the input. -/
theorem ConsumesFrom.lit {pat cs : List Char} (hp : pat.isPrefixOf cs = true)
    (hne : ∀ c ∈ pat, OutNeutral c) :
    ConsumesFrom .out .out cs (cs.drop pat.length) :=
  ConsumesFrom.token
    (List.prefix_iff_eq_append.mp (List.isPrefixOf_iff_prefix.mp hp)).symm hne

/-- The central scan soundness fact: whatever a successful `parseP` run
consumes, the scanner accepts from state `out` back to state `out`.  In
particular text accepted by `json_loads` never contains a backtick
outside a string literal, nor a control character inside one. -/
theorem parseP_scan : ∀ fuel mode cs r rest, parseP fuel mode cs = some (r, rest) →
    ConsumesFrom .out .out cs rest := by
  intro fuel
  induction fuel with
  | zero => intro mode cs r rest h; simp [parseP] at h
  | succ n ih =>
    intro mode cs0 r rest h
    cases mode with
    | val =>
      simp only [parseP] at h
      split at h
      · next htrue =>
        simp only [Option.some.injEq, Prod.mk.injEq] at h
        obtain ⟨-, h2⟩ := h
        subst h2
        exact (ConsumesFrom.ws cs0).trans (ConsumesFrom.lit htrue (by decide))
      · split at h
        · next hfalse =>
          simp only [Option.some.injEq, Prod.mk.injEq] at h
          obtain ⟨-, h2⟩ := h
          subst h2
          exact (ConsumesFrom.ws cs0).trans (ConsumesFrom.lit hfalse (by decide))
        · split at h
          · next hnull =>
            simp only [Option.some.injEq, Prod.mk.injEq] at h
            obtain ⟨-, h2⟩ := h
            subst h2
            exact (ConsumesFrom.ws cs0).trans (ConsumesFrom.lit hnull (by decide))
          · split at h
            · next hnan =>
              simp only [Option.some.injEq, Prod.mk.injEq] at h
              obtain ⟨-, h2⟩ := h
              subst h2
              exact (ConsumesFrom.ws cs0).trans (ConsumesFrom.lit hnan (by decide))
            · split at h
              · next hinf =>
                simp only [Option.some.injEq, Prod.mk.injEq] at h
                obtain ⟨-, h2⟩ := h
                subst h2
                exact (ConsumesFrom.ws cs0).trans (ConsumesFrom.lit hinf (by decide))
              · split at h
                · next hninf =>
                  simp only [Option.some.injEq, Prod.mk.injEq] at h
                  obtain ⟨-, h2⟩ := h
                  subst h2
                  exact (ConsumesFrom.ws cs0).trans (ConsumesFrom.lit hninf (by decide))
                · split at h
                  · next rest1 heq =>
                    refine (ConsumesFrom.ws cs0).trans ?_
                    rw [heq]
                    exact (ConsumesFrom.single _ (by decide)).trans (ih _ _ _ _ h)
                  · next rest1 heq =>
                    refine (ConsumesFrom.ws cs0).trans ?_
                    rw [heq]
                    exact (ConsumesFrom.single _ (by decide)).trans (ih _ _ _ _ h)
                  · next rest1 heq =>
                    split at h
                    · next s1 r1 hstr =>
                      simp only [Option.some.injEq, Prod.mk.injEq] at h
                      obtain ⟨-, h2⟩ := h
                      subst h2
                      refine (ConsumesFrom.ws cs0).trans ?_
                      rw [heq]
                      exact (ConsumesFrom.openQuote _).trans
                        (parseStringRest_scan _ _ _ _ hstr)
                    · exact absurd h (by simp)
                  · next cs' hne1 hne2 hne3 =>
                    split at h
                    · next lx r1 hnum =>
                      simp only [Option.some.injEq, Prod.mk.injEq] at h
                      obtain ⟨-, h2⟩ := h
                      subst h2
                      exact (ConsumesFrom.ws cs0).trans (parseNumLex_consumes hnum)
                    · exact absurd h (by simp)
    | objBody =>
      simp only [parseP] at h
      split at h
      · next rest1 heq =>
        simp only [Option.some.injEq, Prod.mk.injEq] at h
        obtain ⟨-, h2⟩ := h
        subst h2
        refine (ConsumesFrom.ws cs0).trans ?_
        rw [heq]
        exact ConsumesFrom.single _ (by decide)
      · next r1 heq =>
        split at h
        · exact absurd h (by simp)
        · next k r2 hstr =>
          split at h
          · next r3 heq2 =>
            split at h
            · next v r4 hval =>
              split at h
              · next more r5 hmore =>
                simp only [Option.some.injEq, Prod.mk.injEq] at h
                obtain ⟨-, h2⟩ := h
                subst h2
                refine (ConsumesFrom.ws cs0).trans ?_
                rw [heq]
                refine (ConsumesFrom.openQuote _).trans ?_
                refine (parseStringRest_scan n r1 k r2 hstr).trans ?_
                refine (ConsumesFrom.ws r2).trans ?_
                rw [heq2]
                exact (ConsumesFrom.outChar (by decide) _).trans
                  ((ih _ _ _ _ hval).trans (ih _ _ _ _ hmore))
              · exact absurd h (by simp)
            · exact absurd h (by simp)
          · exact absurd h (by simp)
      · exact absurd h (by simp)
    | objMore =>
      simp only [parseP] at h
      split at h
      · next rest1 heq =>
        simp only [Option.some.injEq, Prod.mk.injEq] at h
        obtain ⟨-, h2⟩ := h
        subst h2
        refine (ConsumesFrom.ws cs0).trans ?_
        rw [heq]
        exact ConsumesFrom.single _ (by decide)
      · next r0 heq =>
        split at h
        · next r1 heq1 =>
          split at h
          · exact absurd h (by simp)
          · next k r2 hstr =>
            split at h
            · next r3 heq2 =>
              split at h
              · next v r4 hval =>
                split at h
                · next more r5 hmore =>
                  simp only [Option.some.injEq, Prod.mk.injEq] at h
                  obtain ⟨-, h2⟩ := h
                  subst h2
                  refine (ConsumesFrom.ws cs0).trans ?_
                  rw [heq]
                  refine (ConsumesFrom.outChar (by decide) _).trans ?_
                  refine (ConsumesFrom.ws r0).trans ?_
                  rw [heq1]
                  refine (ConsumesFrom.openQuote _).trans ?_
                  refine (parseStringRest_scan n r1 k r2 hstr).trans ?_
                  refine (ConsumesFrom.ws r2).trans ?_
                  rw [heq2]
                  exact (ConsumesFrom.outChar (by decide) _).trans
                    ((ih _ _ _ _ hval).trans (ih _ _ _ _ hmore))
                · exact absurd h (by simp)
              · exact absurd h (by simp)
            · exact absurd h (by simp)
        · exact absurd h (by simp)
      · exact absurd h (by simp)
    | arrBody =>
      simp only [parseP] at h
      split at h
      · next rest1 heq =>
        simp only [Option.some.injEq, Prod.mk.injEq] at h
        obtain ⟨-, h2⟩ := h
        subst h2
        refine (ConsumesFrom.ws cs0).trans ?_
        rw [heq]
        exact ConsumesFrom.single _ (by decide)
      · next cs' hne =>
        split at h
        · next v r1 hval =>
          split at h
          · next more r2 hmore =>
            simp only [Option.some.injEq, Prod.mk.injEq] at h
            obtain ⟨-, h2⟩ := h
            subst h2
            exact (ConsumesFrom.ws cs0).trans
              ((ih _ _ _ _ hval).trans (ih _ _ _ _ hmore))
          · exact absurd h (by simp)
        · exact absurd h (by simp)
    | arrMore =>
      simp only [parseP] at h
      split at h
      · next rest1 heq =>
        simp only [Option.some.injEq, Prod.mk.injEq] at h
        obtain ⟨-, h2⟩ := h
        subst h2
        refine (ConsumesFrom.ws cs0).trans ?_
        rw [heq]
        exact ConsumesFrom.single _ (by decide)
      · next r0 heq =>
        split at h
        · next v r1 hval =>
          split at h
          · next more r2 hmore =>
            simp only [Option.some.injEq, Prod.mk.injEq] at h
            obtain ⟨-, h2⟩ := h
            subst h2
            refine (ConsumesFrom.ws cs0).trans ?_
            rw [heq]
            exact (ConsumesFrom.single _ (by decide)).trans
              ((ih _ _ _ _ hval).trans (ih _ _ _ _ hmore))
          · exact absurd h (by simp)
        · exact absurd h (by simp)
      · exact absurd h (by simp)

/-- Text accepted by `json_loads` scans cleanly end to end. -/
theorem json_loads_scan {cs : List Char} {v : JValue} (h : json_loads cs = some v) :
    scanList .out cs = some .out := by
  unfold json_loads at h
  split at h
  · next v' rest hp =>
    by_cases hemp : (skipWs rest).isEmpty = true
    · obtain ⟨pre, hsplit, hscan⟩ := parseP_scan _ _ _ _ _ hp
      have hws : ∀ c ∈ rest, isJsonWs c = true :=
        List.dropWhile_eq_nil_iff.mp (List.isEmpty_iff.mp hemp)
      have hrest : scanList .out rest = some .out :=
        scanList_out_neutral (fun c hc => isJsonWs_neutral (hws c hc))
      rw [hsplit, scanList_append, hscan]
      exact hrest
    · rw [if_neg hemp] at h; exact absurd h (by simp)
  · exact absurd h (by simp)

theorem scanList_cons_some {s s' : ScanSt} {c : Char} (h : scan1 s c = some s')
    (cs : List Char) : scanList s (c :: cs) = scanList s' cs := by
  simp [scanList, h]

theorem scanList_cons_none {s : ScanSt} {c : Char} (h : scan1 s c = none)
    (cs : List Char) : scanList s (c :: cs) = none := by
  simp [scanList, h]

/-- A scanner-clean text has no raw newline directly followed by a backtick. -/
theorem scan_no_nl_btick {cs : List Char} (hs : scanList .out cs = some .out)
    (hocc : OccursIn ['\n', btick] cs) : False := by
  obtain ⟨a, b, rfl⟩ := hocc
  rw [scanList_append] at hs
  match hm : scanList .out a with
  | none => rw [hm] at hs; exact absurd hs (by simp)
  | some m =>
    rw [hm] at hs
    simp only [Option.some_bind] at hs
    cases m
    · rw [List.cons_append, List.cons_append,
        scanList_cons_some (show scan1 .out '\n' = some .out by decide),
        scanList_cons_none (show scan1 .out btick = none by decide)] at hs
      exact absurd hs (by simp)
    · rw [List.cons_append,
        scanList_cons_none (show scan1 .inStr '\n' = none by decide)] at hs
      exact absurd hs (by simp)
    · rw [List.cons_append,
        scanList_cons_none (show scan1 .esc '\n' = none by decide)] at hs
      exact absurd hs (by simp)

/-- A scanner-clean text has no occurrence of the fence opener `'''json\n`. -/
theorem scan_no_fence8 {cs : List Char} (hs : scanList .out cs = some .out)
    (hocc : OccursIn fence8 cs) : False := by
  obtain ⟨a, b, rfl⟩ := hocc
  rw [scanList_append] at hs
  match hm : scanList .out a with
  | none => rw [hm] at hs; exact absurd hs (by simp)
  | some m =>
    rw [hm] at hs
    simp only [Option.some_bind] at hs
    have hrun : scanList .inStr (btick :: btick :: 'j' :: 's' :: 'o' :: 'n' :: '\n' :: b)
        = none := by
      rw [scanList_cons_some (show scan1 .inStr btick = some .inStr by decide),
        scanList_cons_some (show scan1 .inStr btick = some .inStr by decide),
        scanList_cons_some (show scan1 .inStr 'j' = some .inStr by decide),
        scanList_cons_some (show scan1 .inStr 's' = some .inStr by decide),
        scanList_cons_some (show scan1 .inStr 'o' = some .inStr by decide),
        scanList_cons_some (show scan1 .inStr 'n' = some .inStr by decide),
        scanList_cons_none (show scan1 .inStr '\n' = none by decide)]
    simp only [fence8, List.cons_append, List.nil_append] at hs
    cases m
    · rw [scanList_cons_none (show scan1 .out btick = none by decide)] at hs
      exact absurd hs (by simp)
    · rw [scanList_cons_some (show scan1 .inStr btick = some .inStr by decide),
        hrun] at hs
      exact absurd hs (by simp)
    · rw [scanList_cons_some (show scan1 .esc btick = some .inStr by decide),
        hrun] at hs
      exact absurd hs (by simp)

theorem json_loads_no_nl_btick {cs : List Char} {v : JValue}
    (h : json_loads cs = some v) (hocc : OccursIn ['\n', btick] cs) : False :=
  scan_no_nl_btick (json_loads_scan h) hocc

theorem json_loads_no_fence8 {cs : List Char} {v : JValue}
    (h : json_loads cs = some v) (hocc : OccursIn fence8 cs) : False :=
  scan_no_fence8 (json_loads_scan h) hocc

theorem firstMatchIdx_found {pat : List Char} : ∀ {cs : List Char} {i : Nat},
    firstMatchIdx pat cs = some i → pat <+: cs.drop i := by
  intro cs
  induction cs with
  | nil =>
    intro i h
    simp only [firstMatchIdx] at h
    split at h
    · next hemp =>
      simp only [Option.some.injEq] at h
      subst h
      simp [List.isEmpty_iff.mp hemp]
    · exact absurd h (by simp)
  | cons c cs ih =>
    intro i h
    simp only [firstMatchIdx] at h
    split at h
    · next hpre =>
      simp only [Option.some.injEq] at h
      subst h
      simpa using List.isPrefixOf_iff_prefix.mp hpre
    · next hpre =>
      match hm : firstMatchIdx pat cs with
      | none => rw [hm] at h; exact absurd h (by simp)
      | some j =>
        rw [hm] at h
        simp only [Option.map_some', Option.some.injEq] at h
        subst h
        simpa using ih hm

theorem firstMatchIdx_min {pat : List Char} : ∀ {cs : List Char} {i : Nat},
    firstMatchIdx pat cs = some i → ∀ k, k < i → ¬ (pat <+: cs.drop k) := by
  intro cs
  induction cs with
  | nil =>
    intro i h k hk
    simp only [firstMatchIdx] at h
    split at h
    · next hemp =>
      simp only [Option.some.injEq] at h
      omega
    · exact absurd h (by simp)
  | cons c cs ih =>
    intro i h k hk
    simp only [firstMatchIdx] at h
    split at h
    · next hpre =>
      simp only [Option.some.injEq] at h
      omega
    · next hpre =>
      match hm : firstMatchIdx pat cs with
      | none => rw [hm] at h; exact absurd h (by simp)
      | some j =>
        rw [hm] at h
        simp only [Option.map_some', Option.some.injEq] at h
        subst h
        match k with
        | 0 =>
          intro hc
          exact hpre (List.isPrefixOf_iff_prefix.mpr (by simpa using hc))
        | k' + 1 =>
          simpa using ih hm k' (by omega)

theorem firstMatchIdx_none {pat : List Char} : ∀ {cs : List Char},
    firstMatchIdx pat cs = none → ∀ k, ¬ (pat <+: cs.drop k) := by
  intro cs
  induction cs with
  | nil =>
    intro h k
    simp only [firstMatchIdx] at h
    split at h
    · exact absurd h (by simp)
    · next hemp =>
      intro hc
      rw [List.drop_nil] at hc
      exact hemp (by simpa using List.eq_nil_of_prefix_nil hc ▸ rfl)
  | cons c cs ih =>
    intro h k
    simp only [firstMatchIdx] at h
    split at h
    · exact absurd h (by simp)
    · next hpre =>
      match hm : firstMatchIdx pat cs with
      | none =>
        match k with
        | 0 =>
          intro hc
          exact hpre (List.isPrefixOf_iff_prefix.mpr (by simpa using hc))
        | k' + 1 => simpa using ih hm k'
      | some j => rw [hm] at h; exact absurd h (by simp)

theorem firstMatchIdx_of {pat : List Char} : ∀ {cs : List Char} {i : Nat},
    pat <+: cs.drop i → (∀ k, k < i → ¬ (pat <+: cs.drop k)) →
    firstMatchIdx pat cs = some i := by
  intro cs
  induction cs with
  | nil =>
    intro i hi hmin
    rw [List.drop_nil] at hi
    have hpe : pat = [] := List.eq_nil_of_prefix_nil hi
    have hi0 : i = 0 := by
      by_contra hne
      exact hmin 0 (by omega) (by simp [hpe])
    subst hi0
    simp [firstMatchIdx, hpe]
  | cons c cs ih =>
    intro i hi hmin
    match i with
    | 0 =>
      rw [List.drop_zero] at hi
      simp [firstMatchIdx, List.isPrefixOf_iff_prefix.mpr hi]
    | j + 1 =>
      have hpre : ¬ pat.isPrefixOf (c :: cs) = true := fun hp =>
        hmin 0 (by omega) (by simpa using List.isPrefixOf_iff_prefix.mp hp)
      simp only [firstMatchIdx, if_neg hpre]
      have : firstMatchIdx pat cs = some j := by
        refine ih (by simpa using hi) ?_
        intro k hk hc
        exact hmin (k + 1) (by omega) (by simpa using hc)
      rw [this]
      rfl

theorem lastIdxOf_found {c : Char} : ∀ {cs : List Char} {l : Nat},
    lastIdxOf c cs = some l → ∃ t, cs.drop l = c :: t := by
  intro cs
  induction cs with
  | nil => intro l h; simp [lastIdxOf] at h
  | cons x xs ih =>
    intro l h
    simp only [lastIdxOf] at h
    split at h
    · next j hj =>
      simp only [Option.some.injEq] at h
      subst h
      simpa using ih hj
    · next hj =>
      split at h
      · next hx =>
        simp only [Option.some.injEq] at h
        subst h hx
        exact ⟨xs, rfl⟩
      · exact absurd h (by simp)

theorem lastIdxOf_none {c : Char} : ∀ {cs : List Char},
    lastIdxOf c cs = none → ∀ k t, cs.drop k ≠ c :: t := by
  intro cs
  induction cs with
  | nil => intro h k t; simp
  | cons x xs ih =>
    intro h k t
    simp only [lastIdxOf] at h
    split at h
    · exact absurd h (by simp)
    · next hj =>
      split at h
      · exact absurd h (by simp)
      · next hx =>
        match k with
        | 0 =>
          rw [List.drop_zero]
          intro hc
          exact hx (List.cons.inj hc).1
        | k' + 1 => simpa using ih hj k' t

theorem lastIdxOf_max {c : Char} : ∀ {cs : List Char} {l : Nat},
    lastIdxOf c cs = some l → ∀ k, l < k → ∀ t, cs.drop k ≠ c :: t := by
  intro cs
  induction cs with
  | nil =>
    intro l h k hk t
    simp [lastIdxOf] at h
  | cons x xs ih =>
    intro l h k hk t
    simp only [lastIdxOf] at h
    split at h
    · next j hj =>
      simp only [Option.some.injEq] at h
      subst h
      match k with
      | 0 => omega
      | k' + 1 => simpa using ih hj k' (by omega) t
    · next hj =>
      split at h
      · next hx =>
        simp only [Option.some.injEq] at h
        subst h
        match k with
        | 0 => omega
        | k' + 1 =>
          simp only [List.drop_succ_cons]
          exact lastIdxOf_none hj k' t
      · exact absurd h (by simp)

theorem lastIdxOf_of_at {c : Char} : ∀ {cs t : List Char} {k : Nat},
    cs.drop k = c :: t → ∃ l, lastIdxOf c cs = some l ∧ k ≤ l := by
  intro cs
  induction cs with
  | nil =>
    intro t k h
    rw [List.drop_nil] at h
    exact absurd h (by simp)
  | cons x xs ih =>
    intro t k h
    match k with
    | 0 =>
      rw [List.drop_zero] at h
      obtain ⟨hx, -⟩ := List.cons.inj h
      subst hx
      simp only [lastIdxOf]
      match hm : lastIdxOf x xs with
      | some j => exact ⟨j + 1, rfl, by omega⟩
      | none => exact ⟨0, by simp, by omega⟩
    | k' + 1 =>
      rw [List.drop_succ_cons] at h
      obtain ⟨l', hl', hk'⟩ := ih h
      simp only [lastIdxOf, hl']
      exact ⟨l' + 1, rfl, by omega⟩

theorem drop_add (cs : List Char) (m n : Nat) : cs.drop (m + n) = (cs.drop m).drop n :=
  (List.drop_drop n m cs).symm

theorem occursIn_of_at {pat cs : List Char} {k : Nat} (h : pat <+: cs.drop k) :
    OccursIn pat cs := by
  obtain ⟨t, ht⟩ := h
  exact ⟨cs.take k, t, by rw [ht, List.take_append_drop]⟩

theorem occursIn_slice {pat cs : List Char} {k f e : Nat}
    (h : pat <+: cs.drop k) (hf : f ≤ k) (he : k + pat.length ≤ e) :
    OccursIn pat (pySlice cs f e) := by
  have hk : pat <+: (pySlice cs f e).drop (k - f) := by
    unfold pySlice
    rw [List.drop_take, List.drop_drop]
    have h1 : f + (k - f) = k := by omega
    rw [h1]
    rw [List.prefix_take_iff]
    exact ⟨h, by omega⟩
  exact occursIn_of_at hk

theorem fenceGroup_eq {cs g : List Char} (h : fenceGroup cs = some g) :
    ∃ i d, firstMatchIdx fenceOpen9 cs = some i ∧
      firstMatchIdx fenceClose5 (cs.drop (i + 9)) = some d ∧
      g = pySlice cs (i + 8) (i + 9 + d + 1) := by
  unfold fenceGroup at h
  split at h
  · exact absurd h (by simp)
  · next i hi =>
    split at h
    · exact absurd h (by simp)
    · next d hd =>
      simp only [Option.some.injEq] at h
      exact ⟨i, d, hi, hd, h.symm⟩

theorem braceSpan_eq {cs s : List Char} (h : braceSpan cs = some s) :
    ∃ f l, firstMatchIdx ['{'] cs = some f ∧ lastIdxOf '}' cs = some l ∧
      f < l ∧ s = pySlice cs f (l + 1) := by
  unfold braceSpan at h
  split at h
  · next f l hf hl =>
    split at h
    · next hfl =>
      simp only [Option.some.injEq] at h
      exact ⟨f, l, hf, hl, hfl, h.symm⟩
    · exact absurd h (by simp)
  · exact absurd h (by simp)

/-- The heart of the C1 equivalence: when the fence regex has matched
but its group does not parse, the greedy brace span cannot parse
either.  Either the span coincides with the fence group, or it strictly
contains fence punctuation (```` '''json\n ```` or a `}`-adjacent
``` \n''' ```), which no `json_loads`-acceptable text may contain. -/
theorem braceSpan_unparsable_of_fence {raw g s : List Char}
    (hfg : fenceGroup raw = some g) (hg : json_loads g = none)
    (hbs : braceSpan raw = some s) : json_loads s = none := by
  obtain ⟨i, d, hi, hd, hgv⟩ := fenceGroup_eq hfg
  obtain ⟨f, l, hf, hl, hfl, hsv⟩ := braceSpan_eq hbs
  -- decompose the two regex anchors
  obtain ⟨t, hopen⟩ := firstMatchIdx_found hi
  have hclose0 := firstMatchIdx_found hd
  rw [← drop_add] at hclose0
  obtain ⟨t', hclose⟩ := hclose0
  -- raw.drop (i+8) starts with the fence group's opening brace
  have hbrace8 : raw.drop (i + 8) = '{' :: t := by
    rw [drop_add raw i 8, ← hopen]
    rfl
  -- the first brace of the text lies at or before the fence's brace
  have hfle : f ≤ i + 8 := by
    by_contra hgt
    exact firstMatchIdx_min hf (i + 8) (by omega) ⟨t, by rw [hbrace8]; rfl⟩
  -- the last closing brace lies at or after the fence closer
  have hjl : i + 9 + d ≤ l := by
    obtain ⟨l', hl', hkl⟩ :=
      @lastIdxOf_of_at '}' raw ('\n' :: btick :: btick :: btick :: t') (i + 9 + d)
        (by rw [← hclose]; rfl)
    rw [hl'] at hl
    simp only [Option.some.injEq] at hl
    omega
  by_cases hfe : f = i + 8
  · by_cases hle : l = i + 9 + d
    · -- the span IS the fence group
      have : s = g := by rw [hsv, hgv, hfe, hle]
      rw [this]
      exact hg
    · -- the span extends past the fence closer: it contains "\n`"
      have hlgt : i + 9 + d < l := by omega
      have hdrop1 : raw.drop (i + 9 + d + 1) = '\n' :: btick :: btick :: btick :: t' := by
        rw [drop_add raw (i + 9 + d) 1, ← hclose]
        rfl
      have hl2 : i + 9 + d + 2 ≤ l := by
        rcases Nat.lt_or_ge l (i + 9 + d + 2) with hlt | hge
        · exfalso
          have hleq : l = i + 9 + d + 1 := by omega
          obtain ⟨tl, htl⟩ := lastIdxOf_found hl
          rw [hleq, hdrop1] at htl
          exact absurd (List.cons.inj htl).1 (by decide)
        · exact hge
      have hocc : ('\n' :: btick :: []) <+: raw.drop (i + 9 + d + 1) := by
        rw [hdrop1]
        exact ⟨btick :: btick :: t', rfl⟩
      match hjs : json_loads s with
      | none => rfl
      | some v =>
        exfalso
        refine json_loads_no_nl_btick hjs ?_
        rw [hsv]
        exact occursIn_slice hocc (by omega) (by simp; omega)
  · -- the span starts before the fence opener: it contains "```json\n"
    have hflt : f < i + 8 := by omega
    -- the first brace cannot lie inside the fence opener itself
    have hfi : f ≤ i := by
      by_contra hgt
      have hm1 : 1 ≤ f - i := by omega
      have hm7 : f - i ≤ 7 := by omega
      obtain ⟨tf, htf⟩ := firstMatchIdx_found hf
      simp only [List.singleton_append] at htf
      have hdf : raw.drop f = fenceOpen9.drop (f - i) ++ t := by
        have h2 : (raw.drop i).drop (f - i) = fenceOpen9.drop (f - i) ++ t := by
          rw [← hopen, List.drop_append_of_le_length (by simp [fenceOpen9]; omega)]
        rw [← h2, ← drop_add raw i (f - i)]
        congr 1
        omega
      have hhof : (fenceOpen9.drop (f - i)).head? = some '{' := by
        match hdm : fenceOpen9.drop (f - i) with
        | [] =>
          exfalso
          have := congrArg List.length hdm
          simp [fenceOpen9] at this
          omega
        | cm :: tm =>
          rw [hdm] at hdf
          rw [hdf] at htf
          simp only [List.cons_append] at htf
          rw [(List.cons.inj htf).1]
          rfl
      have hno : ∀ m, 1 ≤ m → m ≤ 7 → (fenceOpen9.drop m).head? ≠ some '{' := by
        intro m h1 h2
        interval_cases m <;> decide
      exact hno (f - i) hm1 hm7 hhof
    have hocc : fence8 <+: raw.drop i := by
      refine ⟨'{' :: t, ?_⟩
      rw [← hopen]
      rfl
    match hjs : json_loads s with
    | none => rfl
    | some v =>
      exfalso
      refine json_loads_no_fence8 hjs ?_
      rw [hsv]
      exact occursIn_slice hocc hfi (by simp [fence8]; omega)

/-- C1: for every input text, `clean_json_output` attempts the three
parsing strategies in strict order — whole text as JSON, interior of a
````json`-labelled fence, greedy first-`{`-to-last-`}` span — returns
the first success, and when all three fail it surfaces an error
carrying the original raw text, never a partial or default value.
Stated as: the embedded function, with its error collapsed to the raw
text it carries, equals the three-strategy contract `normalizeSpec`
worded by the specification.  (In the one control-flow corner where the
code skips the third strategy — a fence that matched but did not parse —
`braceSpan_unparsable_of_fence` shows the third strategy could not have
succeeded anyway, so the two functions agree everywhere.) -/
theorem C1_clean_json_output_three_strategies_in_order (raw : List Char) :
    (clean_json_output raw).mapError CleanError.rawText = normalizeSpec raw := by
  unfold clean_json_output normalizeSpec
  cases h0 : json_loads raw with
  | some v => rfl
  | none =>
    cases hfg : fenceGroup raw with
    | some g =>
      simp only [Option.some_bind]
      cases hg : json_loads g with
      | some v => rfl
      | none =>
        cases hbs : braceSpan raw with
        | none => rfl
        | some s =>
          simp only [Option.some_bind]
          rw [braceSpan_unparsable_of_fence hfg hg hbs]
          rfl
    | none =>
      simp only [Option.none_bind]
      cases hbs : braceSpan raw with
      | none => rfl
      | some s =>
        simp only [Option.some_bind]
        cases hjs : json_loads s with
        | some v => rfl
        | none => rfl

/-- C10: when the entire input parses directly as JSON, the Normalizer
returns that parsed value whatever its JSON type (bare numbers,
strings, lists and `null` included, not only the `dict` its contract
declares), while the second and third fallback strategies only ever
extract brace-opened spans. -/
theorem C10_direct_parse_returns_any_json_type :
    (∀ raw v, json_loads raw = some v → clean_json_output raw = .ok v) ∧
    (∀ raw g, fenceGroup raw = some g → ∃ t, g = '{' :: t) ∧
    (∀ raw g, braceSpan raw = some g → ∃ t, g = '{' :: t) := by
  refine ⟨?_, ?_, ?_⟩
  · intro raw v h
    unfold clean_json_output
    rw [h]
  · intro raw g h
    obtain ⟨i, d, hi, hd, hgv⟩ := fenceGroup_eq h
    obtain ⟨t, hopen⟩ := firstMatchIdx_found hi
    have hbrace8 : raw.drop (i + 8) = '{' :: t := by
      rw [drop_add raw i 8, ← hopen]
      rfl
    refine ⟨t.take (i + 9 + d + 1 - (i + 8) - 1), ?_⟩
    rw [hgv]
    unfold pySlice
    rw [hbrace8]
    have : i + 9 + d + 1 - (i + 8) = (i + 9 + d - (i + 8)) + 1 := by omega
    rw [this, List.take_succ_cons]
    congr 1
  · intro raw g h
    obtain ⟨f, l, hf, hl, hfl, hgv⟩ := braceSpan_eq h
    obtain ⟨t, hopen⟩ := firstMatchIdx_found hf
    simp only [List.singleton_append] at hopen
    refine ⟨t.take (l + 1 - f - 1), ?_⟩
    rw [hgv]
    unfold pySlice
    rw [← hopen]
    have : l + 1 - f = (l - f) + 1 := by omega
    rw [this, List.take_succ_cons]
    congr 1

theorem isPrefix_drop {pat z : List Char} (h : pat <+: z) (n : Nat)
    (hn : n ≤ pat.length) : pat.drop n <+: z.drop n := by
  obtain ⟨w, rfl⟩ := h
  rw [List.drop_append_of_le_length hn]
  exact List.prefix_append _ _

theorem prefix_app_left {pat a b : List Char} (h : pat <+: a ++ b)
    (hl : pat.length ≤ a.length) : pat <+: a := by
  have := List.prefix_take_iff.mpr ⟨h, hl⟩
  rwa [List.take_left] at this

/-- C7 is false as universally stated: on `c7cex` the object
`{"a": 1}` is wrapped in a fenced block labelled json (with prose
before and nothing after), yet the Normalizer raises a decode error
carrying the raw text instead of returning the parsed interior. -/
theorem C7_counterexample :
    clean_json_output c7cex = .error (.decodeFailed c7cex) := rfl

/-- C7 (amended): for every JSON object wrapped in a fenced code block
labelled json — the fence written exactly as the regex expects, the
interior a brace-delimited object that parses — the Normalizer extracts
the fence interior and returns its parsed value for arbitrary prose
before and after the fence, provided the text before the fence interior
does not itself contain an occurrence of ````json` followed by a newline
and a brace (otherwise the lazy regex anchors there instead, as the
counterexample shows). -/
theorem C7_amended_fenced_object_extracted (p s m : List Char) (v : JValue)
    (hj : json_loads ('{' :: m ++ ['}']) = some v)
    (hp : ∀ k, k < p.length →
      ¬ (fenceOpen9 <+:
          (p ++ "```json\n".data ++ ('{' :: m ++ ['}']) ++ "\n```".data ++ s).drop k)) :
    clean_json_output
        (p ++ "```json\n".data ++ ('{' :: m ++ ['}']) ++ "\n```".data ++ s) = .ok v := by
  have hF : "```json\n".data = fence8 := rfl
  have hN : "\n```".data = '\n' :: btick :: btick :: btick :: [] := rfl
  set Y : List Char := m ++ ('}' :: '\n' :: btick :: btick :: btick :: s) with hY
  have hcanon : p ++ "```json\n".data ++ ('{' :: m ++ ['}']) ++ "\n```".data ++ s
      = p ++ (fenceOpen9 ++ Y) := by
    rw [hF, hN, hY]
    simp [fence8, fenceOpen9, List.append_assoc]
  rw [hcanon] at hp ⊢
  -- the whole text contains the fence opener, so the direct parse fails
  have hoccF : OccursIn fence8 (p ++ (fenceOpen9 ++ Y)) :=
    ⟨p, '{' :: Y, by simp [fenceOpen9, fence8, List.append_assoc]⟩
  -- the fence regex anchors exactly at the real fence
  have hfo : firstMatchIdx fenceOpen9 (p ++ (fenceOpen9 ++ Y)) = some p.length := by
    refine firstMatchIdx_of ⟨Y, ?_⟩ hp
    rw [List.drop_left]
  -- the closing pattern is first found at the object's final brace
  have hdrop9 : (p ++ (fenceOpen9 ++ Y)).drop (p.length + 9) = Y := by
    rw [List.drop_append]
    rfl
  have hclIdx : firstMatchIdx fenceClose5 Y = some m.length := by
    refine firstMatchIdx_of ⟨s, ?_⟩ ?_
    · rw [hY, List.drop_left]
      rfl
    · intro k hk hpre
      by_cases hk3 : k + 3 ≤ m.length
      · -- the closer would place "\n`" inside the object: impossible
        have h1 : fenceClose5.drop 1 <+: Y.drop (k + 1) := by
          have := isPrefix_drop hpre 1 (by decide)
          rwa [← drop_add] at this
        have h2 : ('\n' :: btick :: []) <+: Y.drop (k + 1) :=
          List.IsPrefix.trans (by decide) h1
        have hYk : Y.drop (k + 1) = m.drop (k + 1) ++ ('}' :: '\n' :: btick :: btick :: btick :: s) := by
          rw [hY, List.drop_append_of_le_length (by omega)]
        have h3 : ('\n' :: btick :: []) <+: m.drop (k + 1) := by
          rw [hYk] at h2
          refine prefix_app_left h2 ?_
          simp
          omega
        have h4 : ('\n' :: btick :: []) <+: ('{' :: m ++ ['}']).drop (k + 2) := by
          have : ('{' :: m ++ ['}']).drop (k + 2) = m.drop (k + 1) ++ ['}'] := by
            have hred : ('{' :: m ++ ['}']).drop (k + 2) = (m ++ ['}']).drop (k + 1) := rfl
            rw [hred, List.drop_append_of_le_length (by omega)]
          rw [this]
          exact h3.trans (List.prefix_append _ _)
        exact json_loads_no_nl_btick hj (occursIn_of_at h4)
      · -- the closer would have to overlap the object's final brace
        obtain ⟨w, hw⟩ := hpre
        have hq5 : m.length - k ≤ 5 := by omega
        have hdq : fenceClose5.drop (m.length - k) ++ w = Y.drop m.length := by
          have := congrArg (List.drop (m.length - k)) hw
          rwa [List.drop_append_of_le_length (by simp [fenceClose5]; omega), ← drop_add,
            show k + (m.length - k) = m.length by omega] at this
        rw [hY, List.drop_left] at hdq
        have hq12 : m.length - k = 1 ∨ m.length - k = 2 := by omega
        rcases hq12 with hq | hq <;> rw [hq] at hdq <;>
          exact absurd (List.cons.inj hdq).1 (by decide)
  -- hence the fence group is exactly the wrapped object
  have hfg : fenceGroup (p ++ (fenceOpen9 ++ Y)) = some ('{' :: m ++ ['}']) := by
    have hslice : pySlice (p ++ (fenceOpen9 ++ Y)) (p.length + 8)
        (p.length + 9 + m.length + 1) = '{' :: m ++ ['}'] := by
      unfold pySlice
      rw [show p.length + 9 + m.length + 1 - (p.length + 8) = m.length + 2 by omega]
      have hdrop8 : (p ++ (fenceOpen9 ++ Y)).drop (p.length + 8) = '{' :: Y := by
        rw [List.drop_append]
        rfl
      rw [hdrop8, List.take_succ_cons]
      congr 1
      rw [hY, List.take_append]
      rfl
    simp only [fenceGroup, hfo, hdrop9, hclIdx, hslice]
  -- assemble `clean_json_output`
  unfold clean_json_output
  cases h0 : json_loads (p ++ (fenceOpen9 ++ Y)) with
  | some v' => exact absurd hoccF (fun hc => json_loads_no_fence8 h0 hc)
  | none =>
    simp only [hfg, hj]

/-- Concrete evaluations for C10: a bare `null`, a list, a string and a
number are all returned as-is by the direct-parse strategy. -/
theorem C10_witness :
    clean_json_output ("null".data) = .ok JValue.null ∧
    clean_json_output ("[1, 2]".data) =
      .ok (.arr [.num ("1".data), .num ("2".data)]) ∧
    clean_json_output ("\"hi\"".data) = .ok (.str ("hi".data)) ∧
    clean_json_output ("42".data) = .ok (.num ("42".data)) :=
  ⟨C10_direct_parse_returns_any_json_type.1 _ _ rfl,
   C10_direct_parse_returns_any_json_type.1 _ _ rfl,
   C10_direct_parse_returns_any_json_type.1 _ _ rfl,
   C10_direct_parse_returns_any_json_type.1 _ _ rfl⟩

/-- Concrete evaluation for the amended C7: ordinary prose around a
fenced object, extracted and parsed. -/
theorem C7_witness :
    clean_json_output ("Note:\n".data ++ "```json\n".data ++
        ('{' :: "\"a\": 1".data ++ ['}']) ++ "\n```".data ++ " done".data) =
      .ok (.obj [("a".data, .num ("1".data))]) :=
  C7_amended_fenced_object_extracted _ _ _ _ rfl (by decide)

example : locate_table ("abc START t END z".data) ("START".data) ("END".data) =
    .ok ("START t".data) := rfl

example : locate_table ("abc t END z".data) ("START".data) ("END".data) =
    .error (.markerNotFound ("START".data)) := rfl

example : locate_table ("abc START t z".data) ("START".data) ("END".data) =
    .error (.markerNotFound ("END".data)) := rfl

example : locate_table ("END then START".data) ("START".data) ("END".data) =
    .ok [] := rfl

/-- Helper: one failing document makes the whole extraction loop fail. -/
theorem extract_all_tables_error {sh eh text : List Char} {e : MarkerError} :
    ∀ {texts : List (List Char)}, text ∈ texts →
    locate_table text sh eh = .error e →
    ∃ e', extract_all_tables texts sh eh = .error e' := by
  intro texts
  induction texts with
  | nil => intro hmem; cases hmem
  | cons t ts ih =>
    intro hmem herr
    rcases List.mem_cons.mp hmem with rfl | hmem'
    · exact ⟨e, by unfold extract_all_tables; rw [herr]⟩
    · obtain ⟨e', he'⟩ := ih hmem' herr
      unfold extract_all_tables
      match hl : locate_table t sh eh with
      | .error e0 => exact ⟨e0, rfl⟩
      | .ok r =>
        rw [he']
        exact ⟨e', rfl⟩

/-- Helper: a successful extraction run covers every document. -/
theorem extract_all_tables_length {sh eh : List Char} :
    ∀ {texts : List (List Char)} {rs : List (List Char)},
    extract_all_tables texts sh eh = .ok rs → rs.length = texts.length := by
  intro texts
  induction texts with
  | nil =>
    intro rs h
    unfold extract_all_tables at h
    simp only [Except.ok.injEq] at h
    subst h
    rfl
  | cons t ts ih =>
    intro rs h
    unfold extract_all_tables at h
    split at h
    · exact absurd h (by simp)
    · next r hr =>
      split at h
      · exact absurd h (by simp)
      · next rs' hrs' =>
        simp only [Except.ok.injEq] at h
        subst h
        simp [ih hrs']

/-- C6: for every document text missing the start marker or the end
marker, `locate_table` raises the marker-not-found error (naming the
missing marker) rather than returning a value; any such document aborts
the whole extraction loop of `main`, so the failure is fatal for the
run, and a run that does succeed has processed every document (no
silent skipping). -/
theorem C6_missing_marker_is_fatal (text sh eh : List Char) :
    (firstMatchIdx sh text = none →
      locate_table text sh eh = .error (.markerNotFound sh)) ∧
    (∀ s, firstMatchIdx sh text = some s → firstMatchIdx eh text = none →
      locate_table text sh eh = .error (.markerNotFound eh)) ∧
    (∀ texts e, text ∈ texts → locate_table text sh eh = .error e →
      ∃ e', extract_all_tables texts sh eh = .error e') ∧
    (∀ texts rs, extract_all_tables texts sh eh = .ok rs →
      rs.length = texts.length) := by
  refine ⟨?_, ?_, ?_, ?_⟩
  · intro hs
    unfold locate_table
    rw [hs]
  · intro s hs he
    unfold locate_table
    rw [hs, he]
  · intro texts e hmem herr
    exact extract_all_tables_error hmem herr
  · intro texts rs h
    exact extract_all_tables_length h

/-- Concrete evaluation for C6: a document with markers "START"/"END"
but no "START" present fails with the start-marker error, and its
presence makes the whole run fail. -/
theorem C6_witness :
    locate_table ("no start, just an END".data) ("START".data) ("END".data) =
      .error (.markerNotFound ("START".data)) ∧
    (∃ e', extract_all_tables [("ok START mid END".data), ("no start, just an END".data)]
      ("START".data) ("END".data) = .error e') := by
  have h1 := (C6_missing_marker_is_fatal ("no start, just an END".data)
    ("START".data) ("END".data)).1 (by decide)
  refine ⟨h1, ?_⟩
  exact (C6_missing_marker_is_fatal ("no start, just an END".data)
    ("START".data) ("END".data)).2.2.1 _ _ (by simp) h1

/-- C9: for every text containing both markers, `locate_table` returns
the slice from the first occurrence of the start marker (inclusive) up
to the first occurrence of the end marker (exclusive), with surrounding
whitespace stripped; in particular, when the end marker's first
occurrence precedes (or coincides with) the start marker's, the Python
slice is empty and the result is the empty string rather than an
error. -/
theorem C9_locate_table_found (text sh eh : List Char) (s e : Nat)
    (hs : firstMatchIdx sh text = some s) (he : firstMatchIdx eh text = some e) :
    locate_table text sh eh = .ok (pyStrip ((text.drop s).take (e - s))) ∧
    (e ≤ s → locate_table text sh eh = .ok []) := by
  constructor
  · unfold locate_table
    rw [hs, he]
    rfl
  · intro hle
    unfold locate_table
    rw [hs, he]
    dsimp only
    unfold pySlice
    rw [show e - s = 0 by omega]
    rfl

/-- Concrete evaluations for C9: the excerpt keeps the start header and
strips whitespace; an end marker occurring before the start marker
yields the empty excerpt. -/
theorem C9_witness :
    locate_table ("x START y END z".data) ("START".data) ("END".data) =
      .ok ("START y".data) ∧
    locate_table ("END first START".data) ("START".data) ("END".data) = .ok [] := by
  constructor
  · have h := (C9_locate_table_found ("x START y END z".data) ("START".data)
      ("END".data) 2 10 rfl rfl).1
    exact h.trans (by rfl)
  · exact (C9_locate_table_found ("END first START".data) ("START".data)
      ("END".data) 10 0 rfl rfl).2 (by omega)

example : evaluate_with_llm_judge ("Score: 83\nEvaluation: Looks solid and accurate.".data) =
    (83, "Looks solid and accurate.".data) := rfl

example : evaluate_with_llm_judge ("I refuse to answer.".data) =
    (50, defaultEvaluation) := rfl

example : evaluate_with_llm_judge ("Score: ninety\nEvaluation: fine".data) =
    (50, defaultEvaluation) := rfl

example : evaluate_with_llm_judge ("Score: 90\nEvaluation: a\nEvaluation: b".data) =
    (90, "a b".data) := rfl

example : evaluate_with_llm_judge ("Score: -3\nEvaluation: bad".data) =
    (-3, "bad".data) := rfl

/-- C4: for every judge response in which no line starts with `Score:`
or the trailing integer cannot be parsed, `evaluate_with_llm_judge`
returns the default verdict (score 50 with the fixed placeholder
evaluation) — it is a total function, so it never raises; when a
`Score:` line is present and its integer parses, it returns that
integer together with the text after the `Evaluation:` marker of every
`Evaluation:`-prefixed line, joined in order into a single string. -/
theorem C4_judge_parse_or_default (r : List Char) :
    ((r.splitOn '\n').find? (fun l => ("Score:".data).isPrefixOf l) = none →
      evaluate_with_llm_judge r = (50, defaultEvaluation)) ∧
    (∀ line, (r.splitOn '\n').find? (fun l => ("Score:".data).isPrefixOf l) = some line →
      pyInt (pyStrip ((pySplitSeq [':'] line).getD 1 [])) = none →
      evaluate_with_llm_judge r = (50, defaultEvaluation)) ∧
    (∀ line n, (r.splitOn '\n').find? (fun l => ("Score:".data).isPrefixOf l) = some line →
      pyInt (pyStrip ((pySplitSeq [':'] line).getD 1 [])) = some n →
      evaluate_with_llm_judge r =
        (n, List.intercalate [' ']
          (((r.splitOn '\n').filter (fun l => ("Evaluation:".data).isPrefixOf l)).map
            (fun l => pyStrip ((pySplitSeq ("Evaluation:".data) l).getD 1 []))))) := by
  refine ⟨?_, ?_, ?_⟩
  · intro h
    simp only [evaluate_with_llm_judge]
    rw [h]
  · intro line h1 h2
    simp only [evaluate_with_llm_judge]
    rw [h1]
    dsimp only
    rw [h2]
  · intro line n h1 h2
    simp only [evaluate_with_llm_judge]
    rw [h1]
    dsimp only
    rw [h2]

/-- Concrete evaluations for C4: the specification's own example
response parses to `(83, "Looks solid and accurate.")`, a response with
no `Score:` line yields the default and an unparsable score yields the
default. -/
theorem C4_witness :
    evaluate_with_llm_judge ("Score: 83\nEvaluation: Looks solid and accurate.".data) =
      (83, "Looks solid and accurate.".data) ∧
    evaluate_with_llm_judge ("I refuse to answer.".data) = (50, defaultEvaluation) ∧
    evaluate_with_llm_judge ("Score: ninety\nEvaluation: meh".data) =
      (50, defaultEvaluation) := by
  refine ⟨?_, ?_, ?_⟩
  · have h := (C4_judge_parse_or_default
      ("Score: 83\nEvaluation: Looks solid and accurate.".data)).2.2
      ("Score: 83".data) 83 (by decide) (by decide)
    exact h.trans (by decide)
  · exact (C4_judge_parse_or_default ("I refuse to answer.".data)).1 (by decide)
  · exact (C4_judge_parse_or_default ("Score: ninety\nEvaluation: meh".data)).2.1
      ("Score: ninety".data) (by decide) (by decide)

/-- C5 is false as stated: the code performs no range validation on the
parsed score, so a judge response of `Score: 150` yields verdict score
150, outside [0,100]. -/
theorem C5_counterexample :
    (evaluate_with_llm_judge ("Score: 150\nEvaluation: fine".data)).1 = 150 ∧
    ¬ (0 ≤ (evaluate_with_llm_judge ("Score: 150\nEvaluation: fine".data)).1 ∧
        (evaluate_with_llm_judge ("Score: 150\nEvaluation: fine".data)).1 ≤ 100) := by
  have h : (evaluate_with_llm_judge ("Score: 150\nEvaluation: fine".data)).1 = 150 := rfl
  refine ⟨h, ?_⟩
  rw [h]
  omega

/-- C5 (amended): the verdict score is either the default 50 or exactly
the integer parsed from the first `Score:` line, whatever its value —
the code does not validate the [0,100] range, so the interval invariant
holds precisely when the judge's reply respects it (and always for the
default). -/
theorem C5_amended_score_parsed_or_default (r : List Char) :
    (evaluate_with_llm_judge r).1 = 50 ∨
    (∃ line n,
      (r.splitOn '\n').find? (fun l => ("Score:".data).isPrefixOf l) = some line ∧
      pyInt (pyStrip ((pySplitSeq [':'] line).getD 1 [])) = some n ∧
      (evaluate_with_llm_judge r).1 = n) := by
  simp only [evaluate_with_llm_judge]
  match h1 : (r.splitOn '\n').find? (fun l => ("Score:".data).isPrefixOf l) with
  | none => exact Or.inl rfl
  | some line =>
    dsimp only
    match h2 : pyInt (pyStrip ((pySplitSeq [':'] line).getD 1 [])) with
    | none => exact Or.inl rfl
    | some n => exact Or.inr ⟨line, n, rfl, h2, rfl⟩

/-- C2: the in-process path runs first; when it succeeds the subprocess
is never attempted; when it raises, the script is executed exactly once
as a subprocess (without the binding, which the subprocess oracle's
type cannot even receive); and the run fails if and only if both
execution paths fail. -/
theorem C2_two_tier_execution (metrics : JValue)
    (rp : JValue → Except (List Char) Unit) (sp : Unit → Except (List Char) Unit) :
    ((run_generated_script metrics rp sp).1.head? = some .runpyAttempt) ∧
    (rp metrics = .ok () →
      run_generated_script metrics rp sp = ([.runpyAttempt], .ok ())) ∧
    (∀ e, rp metrics = .error e →
      run_generated_script metrics rp sp =
        ([.runpyAttempt, .subprocessAttempt], sp ())) ∧
    ((∃ e, (run_generated_script metrics rp sp).2 = .error e) ↔
      ((∃ e, rp metrics = .error e) ∧ (∃ e, sp () = .error e))) := by
  refine ⟨?_, ?_, ?_, ?_⟩
  · unfold run_generated_script
    match rp metrics with
    | .ok _ => rfl
    | .error _ => rfl
  · intro h
    unfold run_generated_script
    rw [h]
  · intro e h
    unfold run_generated_script
    rw [h]
  · unfold run_generated_script
    match h1 : rp metrics with
    | .ok u =>
      cases u
      simp
    | .error e1 =>
      match h2 : sp () with
      | .ok u =>
        cases u
        simp
      | .error e2 => simp

/-- Concrete evaluations for C2: both paths failing fails the run with
the subprocess's error; an in-process success never reaches the
subprocess. -/
theorem C2_witness :
    run_generated_script JValue.null (fun _ => .error ("runpy fails".data))
        (fun _ => .error ("subprocess fails".data)) =
      ([.runpyAttempt, .subprocessAttempt], .error ("subprocess fails".data)) ∧
    run_generated_script JValue.null (fun _ => .ok ())
        (fun _ => .error ("never reached".data)) = ([.runpyAttempt], .ok ()) :=
  ⟨(C2_two_tier_execution _ _ _).2.2.1 _ rfl, (C2_two_tier_execution _ _ _).2.1 rfl⟩

/-- C3: for every well-formed starting state, after the preparation
that immediately precedes script execution the `visualizations`
directory exists and holds no file: any artifact file from a previous
run is gone when the script runs. -/
theorem C3_artifact_dir_cleared (fs : FsState) (hwf : WellFormedFs fs)
    (p : List String) (hp : vizDir <+: p) (hne : p ≠ vizDir) :
    p ∉ (prepare_visualizations_dir fs).files ∧
    vizDir ∈ (prepare_visualizations_dir fs).dirs := by
  constructor
  · intro hmem
    unfold prepare_visualizations_dir makedirsFs at hmem
    dsimp only at hmem
    by_cases hex : (writeFileFs ["visualizations.py"] fs).dirs.contains vizDir
    · rw [if_pos hex] at hmem
      unfold rmtreeFs at hmem
      dsimp only at hmem
      have := List.of_mem_filter hmem
      rw [Bool.not_eq_eq_eq_not, Bool.not_true] at this
      exact absurd (List.isPrefixOf_iff_prefix.mpr hp) (by simp [this])
    · rw [if_neg hex] at hmem
      unfold writeFileFs at hmem
      dsimp only at hmem
      rcases List.mem_cons.mp hmem with hscript | hold
      · rw [hscript] at hp
        obtain ⟨t, ht⟩ := hp
        rw [vizDir] at ht
        simp only [List.cons_append] at ht
        exact absurd (List.cons.inj ht).1 (by decide)
      · have hdir := hwf p hold hp hne
        unfold writeFileFs at hex
        dsimp only at hex
        exact hex (List.elem_eq_true_of_mem hdir)
  · unfold prepare_visualizations_dir makedirsFs
    exact List.mem_cons_self _ _

/-- Concrete evaluation for C3: a stale artifact from a previous run is
absent after preparation, and the directory exists again. -/
theorem C3_witness :
    (["visualizations", "old_chart.png"] ∉
      (prepare_visualizations_dir
        { dirs := [["visualizations"]],
          files := [["visualizations", "old_chart.png"], ["report.md"]] }).files) ∧
    vizDir ∈ (prepare_visualizations_dir
        { dirs := [["visualizations"]],
          files := [["visualizations", "old_chart.png"], ["report.md"]] }).dirs :=
  C3_artifact_dir_cleared _ (by decide) _ (by decide) (by decide)

example : link_context ("intro http://a.example rest of the page".data) ("http://a.example".data)
    = "intro http://a.example rest of the page".data := rfl

/-- C8 is false as stated: for a link whose URI does not occur in the
extracted page text, the record's context is not the empty string but
the stripped prefix of the page text: with `find = -1` the slice is
`text[0 : len(uri)+49]`, unrelated leading text. -/
theorem C8_counterexample :
    link_context ("Quarterly metrics summary for the review".data)
        ("http://z.example".data) =
      "Quarterly metrics summary for the review".data ∧
    link_context ("Quarterly metrics summary for the review".data)
        ("http://z.example".data) ≠ [] := by
  constructor
  · rfl
  · decide

/-- C8 (amended): for every link annotation whose URI cannot be located
in the page's extracted text, the extractor still produces a record
without failing — one record per annotation, always — but the record's
context is the stripped first `len(uri)+49` characters of the page text
(empty only when that prefix is all whitespace), not the empty
string. -/
theorem C8_amended_absent_uri_context :
    (∀ page_text uri : List Char, firstMatchIdx uri page_text = none →
      link_context page_text uri = pyStrip (page_text.take (uri.length + 49))) ∧
    (∀ pages, (extract_hyperlinks_from_pdf pages).length =
      (pages.map (fun pg => pg.2.length)).sum) := by
  constructor
  · intro page_text uri h
    unfold link_context
    rw [h]
    dsimp only
    have h1 : (max 0 ((-1 : Int) - 50)).toNat = 0 := by decide
    have h2 : (min (page_text.length : Int) ((-1) + uri.length + 50)).toNat =
        min page_text.length (uri.length + 49) := by omega
    rw [h1, h2]
    unfold pySlice
    rw [List.drop_zero, Nat.sub_zero]
    congr 1
    rcases le_total page_text.length (uri.length + 49) with hle | hle
    · rw [min_eq_left hle, List.take_length, List.take_of_length_le hle]
    · rw [min_eq_right hle]
  · intro pages
    have key : ∀ (pgs : List (List Char × List (List Char))) (n : Nat),
        ((pgs.enumFrom n).flatMap (fun pg =>
          pg.2.2.map (fun uri => (uri, link_context pg.2.1 uri, pg.1 + 1)))).length =
        (pgs.map (fun pg => pg.2.length)).sum := by
      intro pgs
      induction pgs with
      | nil => intro n; rfl
      | cons pg pgs ih =>
        intro n
        simp only [List.enumFrom, List.flatMap_cons, List.length_append,
          List.length_map, List.map_cons, List.sum_cons, ih (n + 1)]
    exact key pages 0

/-- Concrete evaluations for the amended C8: an absent URI still yields
a record whose context is the stripped page-text prefix, and every
annotation yields exactly one record. -/
theorem C8_witness :
    link_context ("Quarterly metrics overview".data) ("http://missing.example".data) =
      pyStrip (("Quarterly metrics overview".data).take
        (("http://missing.example".data).length + 49)) ∧
    (extract_hyperlinks_from_pdf
      [("page one text".data, [("http://a.example".data), ("http://b.example".data)]),
       ("page two text".data, [("http://c.example".data)])]).length = 3 :=
  ⟨C8_amended_absent_uri_context.1 _ _ (by decide),
   (C8_amended_absent_uri_context.2 _).trans (by decide)⟩
